import Mathlib

/-!
# Verification of the `constant` stack language implementation

Shallow embedding of the `constant` interpreter (lexer, token/literal model,
parser, tree-walking interpreter) from the Rust sources under `src/`, together
with theorems settling the specification claims.

Modelling conventions:
* Rust `f32` number literals are modelled by `ℚ`.  Every numeric value
  occurring in a claim is a small integer, on which `f32` arithmetic is exact,
  so no rounding is modelled.  `f32`'s NaN/inf special values do not arise in
  any claim (no claim divides by zero).
* Rust `Vec` stacks are modelled by `List` with the list head as the stack
  top (`push` = cons, `pop` = uncons).
* Rust `HashMap` environments are modelled by association lists; `insert`
  replaces an existing key.  Iteration order of `HashMap::keys` is
  unspecified in Rust, so theorems never depend on the order of the expected
  token list inside `NonMatchingToken` errors (they quantify it
  existentially).
* Unicode character class predicates (`char::is_numeric`,
  `char::is_whitespace`, `char::is_alphanumeric`) agree with Rust on all of
  ASCII; outside ASCII a partial table is used that is correct on every
  character mentioned by a theorem in this file.
* `str::parse::<f32>` is modelled by an acceptance predicate implementing the
  grammar documented for Rust's `f32: FromStr`, plus an exact rational value
  function for the accepted digit strings the lexer can produce.  A failing
  `unwrap` of the parse result is modelled by a dedicated `panicked` result.
* The source files under `src/` stem from different stages of the repository:
  `parser/mod.rs` predates `proc`/`call`, `elif`, `%`, `and` and `or`, while
  `lexer/mod.rs` and `interpreter/mod.rs` postdate them.  Each component is
  embedded from its own file.  The `And`/`Or` evaluation arms, which exist in
  no file under `src/`, are modelled from the spec and marked as such.
-/

set_option maxHeartbeats 1000000
set_option maxRecDepth 10000

namespace Constant

/-! ## Token and literal model (`src/lexer/token.rs`) -/

/-- Token kinds.  Union of the `TokenType` enum in `token.rs` with the
`Proc`, `Call`, `End` and `Elif` variants referenced by the keyword table in
`lexer/mod.rs` (the checked-in `token.rs` stems from an older commit that
lacks them). -/
inductive TokenType where
  | Plus | Minus | Asterisk | Slash | Percent
  | GT | LT | Eq | GTEq | LTEq | NotEq
  | Number | String | Bool
  | Print | Dup | Swap | Drop | Bind
  | If | Elif | Else | EndIf | While | Do | EndWhile
  | Proc | Call | End
  | Ident
  | EOF
  deriving DecidableEq, Repr

/-- Runtime literal values; `f32` is modelled by `ℚ` (see module comment).
The Rust variants are `Number`, `String`, `Bool`; lowercase names are used
because the capitalized ones would shadow the Lean types inside the
`Literal` namespace. -/
inductive Literal where
  | number (n : ℚ)
  | string (s : String)
  | bool (b : Bool)
  deriving DecidableEq, Repr

/-- A lexical token: kind, original lexeme, and the carried literal value
when the kind has one. -/
structure Token where
  token_type : TokenType
  lexeme : String
  literal : Option Literal
  deriving DecidableEq, Repr

/-- `Token::eof()`. -/
def Token.eofTok : Token := ⟨.EOF, ("") , none⟩

/-- The closed error type of `src/error.rs`, plus the `NonMatchingToken`
variant which `parser/mod.rs` constructs (the checked-in `error.rs` stems
from a commit that had `UnexpectedToken` instead). -/
inductive ConstantError where
  | noSourceFile
  | sourceFileNotFound (s : String)
  | tooManyArgs
  | stringNotTerminated
  | invalidString (s : String) (pos : Nat)
  | invalidStackAmount (action : String) (n : Nat)
  | invalidOperation (msg : String)
  | unexpectedToken (t : TokenType)
  | identDoesNotExist (s : String)
  | procDoesNotExist (s : String)
  | nonMatchingToken (t : TokenType) (expected : List TokenType)
  deriving DecidableEq, Repr

/-- Discriminant index of a `Literal` variant, in declaration order
(`Number`, `String`, `Bool`).  Rust's `#[derive(PartialOrd)]` compares
values of different variants by this declaration order. -/
def Literal.discr : Literal → Nat
  | .number _ => 0
  | .string _ => 1
  | .bool _ => 2

/-- `compare` on strings, lexicographic by character, as Rust's `String: Ord`
(byte order; identical to character order on the ASCII data used here). -/
def strCompare (a b : String) : Ordering :=
  if a < b then .lt else if a = b then .eq else .gt

/-- The comparison produced by `#[derive(PartialOrd)]` on `Literal`:
same-variant values compare by their payload, different variants by
declaration order.  (On `f32`, NaN would make the same-variant comparison
partial; NaN never arises in the claims, and the `ℚ` model is total.) -/
def Literal.cmp : Literal → Literal → Ordering
  | .number a, .number b => compare a b
  | .string a, .string b => strCompare a b
  | .bool a, .bool b => compare a b
  | a, b => compare a.discr b.discr

def Literal.ltb (a b : Literal) : Bool := a.cmp b == .lt
def Literal.gtb (a b : Literal) : Bool := a.cmp b == .gt
def Literal.leb (a b : Literal) : Bool := !(a.cmp b == .gt)
def Literal.geb (a b : Literal) : Bool := !(a.cmp b == .lt)

/-- `#[derive(PartialEq)]` on `Literal`: different variants are never
equal. -/
def Literal.beq (a b : Literal) : Bool :=
  match a, b with
  | .number x, .number y => x == y
  | .string x, .string y => x == y
  | .bool x, .bool y => x == y
  | _, _ => false

/-- `impl Display for Literal`.  Rust renders an integral `f32` without a
decimal point; that is the only case any claim prints.  Non-integral
rationals fall back to Lean's `ℚ` rendering (never exercised by a claim). -/
def Literal.fmt : Literal → String
  | .number q => if q.den = 1 then toString q.num else toString q
  | .string s => s
  | .bool b => cond b ("true") ("false")

/-- `impl Add for Literal` (`token.rs`). -/
def Literal.addOp : Literal → Literal → Except ConstantError Literal
  | .number n, .number m => .ok (.number (n + m))
  | .number _, _ => .error (.invalidOperation ("Can only add numbers to numbers"))
  | .bool _, _ => .error (.invalidOperation ("Cannot add booleans"))
  | .string s, .string z => .ok (.string (s ++ z))
  | .string _, _ => .error (.invalidOperation ("Can only add strings to strings"))

/-- `impl Sub for Literal` (`token.rs`). -/
def Literal.subOp : Literal → Literal → Except ConstantError Literal
  | .number n, .number m => .ok (.number (n - m))
  | .number _, _ => .error (.invalidOperation ("Can only subtract numbers from numbers"))
  | .bool _, _ => .error (.invalidOperation ("Cannot subtract booleans"))
  | .string _, _ => .error (.invalidOperation ("Cannot subtract strings"))

/-- Rust's saturating cast `f32 as usize` on the `ℚ` model: negative values
go to zero, otherwise truncation toward zero, clamped to `usize::MAX`
(64-bit). -/
def f32AsUsize (q : ℚ) : Nat :=
  if q < 0 then 0 else min q.floor.toNat (2 ^ 64 - 1)

/-- `str::repeat`. -/
def strRepeat (s : String) (n : Nat) : String :=
  String.join (List.replicate n s)

/-- `impl Mul for Literal` (`token.rs`): `String * Number` is
`s.repeat(n as usize)`. -/
def Literal.mulOp : Literal → Literal → Except ConstantError Literal
  | .number n, .number m => .ok (.number (n * m))
  | .number _, _ => .error (.invalidOperation ("Can only multiply numbers with numbers"))
  | .bool _, _ => .error (.invalidOperation ("Cannot multiply booleans"))
  | .string s, .number n => .ok (.string (strRepeat s (f32AsUsize n)))
  | .string _, _ => .error (.invalidOperation ("Can only multiply strings with numbers"))

/-- `impl Div for Literal` (`token.rs`).  Division by zero yields `inf`/NaN
in `f32`; no claim divides by zero, and the `ℚ` model returns the `ℚ`
division (zero at zero). -/
def Literal.divOp : Literal → Literal → Except ConstantError Literal
  | .number n, .number m => .ok (.number (n / m))
  | .number _, _ => .error (.invalidOperation ("Can only divide numbers with number"))
  | .bool _, _ => .error (.invalidOperation ("Cannot divide with booleans"))
  | .string _, _ => .error (.invalidOperation ("Cannot divide with strings"))

/-- `impl Rem for Literal` (`token.rs`), with the same caveat about zero as
division. -/
def Literal.remOp : Literal → Literal → Except ConstantError Literal
  | .number n, .number m => .ok (.number (n % m))
  | .number _, _ => .error (.invalidOperation ("Can only mod numbers with numbers"))
  | .bool _, _ => .error (.invalidOperation ("Cannot mod with booleans"))
  | .string _, _ => .error (.invalidOperation ("Cannot mod with strings"))

/-- Modelled from the spec: the `And` operation on literals.  No file under
`src/` contains an `And` evaluation arm (the interpreter's operation match
predates `and`/`or`).  Spec §4.3: "`And`/`Or` require both operands to be
Bool; otherwise `InvalidOperation`". -/
def Literal.andOp : Literal → Literal → Except ConstantError Literal
  | .bool x, .bool y => .ok (.bool (x && y))
  | _, _ => .error (.invalidOperation ("Can only and booleans with booleans"))

/-- Modelled from the spec: the `Or` operation on literals; see
`Literal.andOp`. -/
def Literal.orOp : Literal → Literal → Except ConstantError Literal
  | .bool x, .bool y => .ok (.bool (x || y))
  | _, _ => .error (.invalidOperation ("Can only or booleans with booleans"))

/-! ## AST (`src/parser/ast.rs`) -/

inductive DoubleOpType where
  | Add | Sub | Mul | Div | Mod
  | GT | GTEq | LT | LTEq | Eq | NotEq
  | And | Or
  | Swap
  deriving DecidableEq, Repr

inductive SingleOpType where
  | Print | Dup | Drop
  deriving DecidableEq, Repr

inductive Value where
  | Literal (l : Literal)
  | Ident (s : String)
  deriving DecidableEq, Repr

inductive Statement where
  | Push (v : Value)
  | DoubleOperation (o : DoubleOpType)
  | SingleOperation (o : SingleOpType)
  | Bind (name : String)
  | If (conditions : List Statement) (statements : List Statement)
       (elifs : List (List Statement × List Statement))
       (elseStatements : List Statement)
  | While (conditions : List Statement) (statements : List Statement)
  | Procedure (name : String) (body : List Statement)
  | Call (name : String)
  | Empty
  deriving Repr

/-! ## Lexer (`src/lexer/mod.rs`)

The lexer state is the immutable character vector `source` (NUL-terminated by
`Lexer::new`) together with the cursor `current_pos`; `current_char` is always
`source[current_pos]`, so only the position is threaded. -/

/-- `self.current_char` (and `source.get(i).unwrap_or('\0')` in general). -/
def charAt (src : List Char) (pos : Nat) : Char := src.getD pos '\x00'

/-- `Lexer::next`: advance the cursor unless already at the last index. -/
def nextPos (src : List Char) (pos : Nat) : Nat :=
  if pos + 1 < src.length then pos + 1 else pos

/-- Rust `char::is_whitespace` (the Unicode White_Space property). -/
def rustIsWhitespace (c : Char) : Bool :=
  let v := c.val
  (0x09 ≤ v && v ≤ 0x0D) || v == 0x20 || v == 0x85 || v == 0xA0 || v == 0x1680 ||
  (0x2000 ≤ v && v ≤ 0x200A) || v == 0x2028 || v == 0x2029 || v == 0x202F ||
  v == 0x205F || v == 0x3000

/-- Partial table of non-ASCII characters with Rust `char::is_numeric` true
(Unicode Nd/Nl/No): superscripts ¹²³, vulgar fractions ¼½¾, Arabic-Indic and
Devanagari digits.  Sufficient for every character a theorem mentions. -/
def rustNonAsciiNumericTable (c : Char) : Bool :=
  let v := c.val
  v == 0xB2 || v == 0xB3 || v == 0xB9 || (0xBC ≤ v && v ≤ 0xBE) ||
  (0x660 ≤ v && v ≤ 0x669) || (0x6F0 ≤ v && v ≤ 0x6F9) || (0x966 ≤ v && v ≤ 0x96F)

/-- Rust `char::is_numeric`: on ASCII exactly the digits `0`-`9`; outside
ASCII modelled by the partial table above. -/
def charIsNumeric (c : Char) : Bool :=
  if c.val < 128 then c.isDigit else rustNonAsciiNumericTable c

/-- Rust `char::is_alphanumeric`: on ASCII exactly letters and digits;
outside ASCII modelled partially (Latin-1 letters and the numeric table).
Every identifier a theorem mentions is ASCII. -/
def rustIsAlphanumeric (c : Char) : Bool :=
  if c.val < 128 then c.isAlphanum
  else
    let v := c.val
    rustNonAsciiNumericTable c || (0xC0 ≤ v && v ≤ 0xD6) || (0xD8 ≤ v && v ≤ 0xF6) ||
    (0xF8 ≤ v && v ≤ 0x2AF) || (0x370 ≤ v && v ≤ 0x3FF)

/-- One `while p(current_char) { next() }` scanning loop, fuelled.  The fuel
`src.length - pos` in `scanWhilePos` is exact: the loop advances only while
`pos + 1 < src.length`, so the fuel runs out only at `pos ≥ src.length`,
where the loop guard is false anyway. -/
def scanGo (src : List Char) (p : Char → Bool) : Nat → Nat → Nat
  | 0, pos => pos
  | fuel + 1, pos =>
    if p (charAt src pos) ∧ pos + 1 < src.length then scanGo src p fuel (pos + 1) else pos

/-- Scan forward while `p` holds of the current character (Rust's
`while p(self.current_char) { self.next(); }`). -/
def scanWhilePos (src : List Char) (p : Char → Bool) (pos : Nat) : Nat :=
  scanGo src p (src.length - pos) pos

/-- `Lexer::skip_comments`: on `//`, consume to (but not past) the next
newline or NUL.  Returns the new position and whether anything was
skipped. -/
def skipCommentsPos (src : List Char) (pos : Nat) : Nat × Bool :=
  if charAt src pos = '/' ∧ charAt src (pos + 1) = '/' then
    (scanWhilePos src (fun c => !(c == '\n') && !(c == '\x00')) (nextPos src pos), true)
  else (pos, false)

/-- `Lexer::skip_whitespace`.  The skipped flag is true exactly when the
initial character is whitespace. -/
def skipWhitespacePos (src : List Char) (pos : Nat) : Nat × Bool :=
  (scanWhilePos src rustIsWhitespace pos, rustIsWhitespace (charAt src pos))

/-- `while self.skip_comments() || self.skip_whitespace() {}` (short-circuit:
whitespace is only tried when no comment was skipped), fuelled.  For the
NUL-terminated sources built by `Lexer::new` every iteration strictly
advances, so the fuel below never runs out (proved where needed); on a
malformed source Rust would loop forever where the fuel returns. -/
def skipLoopGo (src : List Char) : Nat → Nat → Nat
  | 0, pos => pos
  | fuel + 1, pos =>
    let c := skipCommentsPos src pos
    if c.2 then skipLoopGo src fuel c.1
    else
      let w := skipWhitespacePos src c.1
      if w.2 then skipLoopGo src fuel w.1 else w.1

def skipLoopPos (src : List Char) (pos : Nat) : Nat :=
  skipLoopGo src (src.length + 1 - pos) pos

/-- The slice `source[a..b]` (as characters).  For the in-bounds ranges the
lexer produces this equals the Rust slice. -/
def sliceChars (src : List Char) (a b : Nat) : List Char :=
  (List.range (b - a)).map (fun i => charAt src (a + i))

def sliceStr (src : List Char) (a b : Nat) : String :=
  String.mk (sliceChars src a b)

/-! ### Model of `str::parse::<f32>` -/

/-- Longest prefix of ASCII digits, with the remainder. -/
def spanDigits : List Char → List Char × List Char
  | [] => ([], [])
  | c :: r => if c.isDigit then let t := spanDigits r; (c :: t.1, t.2) else ([], c :: r)

/-- Strip one optional leading sign. -/
def stripSign : List Char → List Char
  | [] => []
  | c :: r => if c = '+' ∨ c = '-' then r else c :: r

def asciiLower (c : Char) : Char :=
  if 'A' ≤ c ∧ c ≤ 'Z' then Char.ofNat (c.toNat + 32) else c

/-- Exponent part of the `f32` grammar: `(e|E) sign? digit+` and nothing
after. -/
def expAccepts : List Char → Bool
  | 'e' :: r => let d := stripSign r; !d.isEmpty && d.all Char.isDigit
  | 'E' :: r => let d := stripSign r; !d.isEmpty && d.all Char.isDigit
  | _ => false

/-- Mantissa (+ optional exponent) of the `f32` grammar:
`digit+ | digit+ '.' digit* | digit* '.' digit+`, each optionally followed by
an exponent. -/
def mantissaAccepts (cs : List Char) : Bool :=
  let s1 := spanDigits cs
  match s1.2 with
  | [] => !s1.1.isEmpty
  | '.' :: r2 =>
    let s2 := spanDigits r2
    (!s1.1.isEmpty || !s2.1.isEmpty) && (s2.2.isEmpty || expAccepts s2.2)
  | r => !s1.1.isEmpty && expAccepts r

/-- Whether `str::parse::<f32>` succeeds, per the grammar documented for
`f32: FromStr`: optional sign, then `inf`/`infinity`/`nan`
(case-insensitive) or a mantissa with optional exponent.  Any non-ASCII
character is rejected. -/
def rustParseF32Accepts (cs : List Char) : Bool :=
  let b := stripSign cs
  let low := b.map asciiLower
  if low = ("inf").data || low = ("infinity").data || low = ("nan").data then true
  else mantissaAccepts b

def digitsToNat (cs : List Char) : Nat :=
  cs.foldl (fun a c => 10 * a + (c.toNat - 48)) 0

/-- Exact rational value of a decimal fragment `digit* ('.' digit*)?` — the
only shape the lexer's number branch can accept.  `f32` rounding is not
modelled; every number a claim evaluates is exactly representable. -/
def parseF32Val (cs : List Char) : ℚ :=
  let s1 := spanDigits cs
  let ip : ℚ := (digitsToNat s1.1 : ℚ)
  match s1.2 with
  | '.' :: r2 =>
    let s2 := spanDigits r2
    ip + (digitsToNat s2.1 : ℚ) / ((10 : ℚ) ^ s2.1.length)
  | _ => ip

/-! ### Token production -/

/-- The `KEYWORDS` table of `lexer/mod.rs`, in insertion order. -/
def KEYWORDS : List (String × TokenType) :=
  [("true", .Bool), ("false", .Bool), ("print", .Print), ("dup", .Dup),
   ("swap", .Swap), ("drop", .Drop), ("bind", .Bind), ("if", .If),
   ("elif", .Elif), ("else", .Else), ("while", .While), ("proc", .Proc),
   ("call", .Call), ("do", .Do), ("end", .End)]

/-- `*KEYWORDS.get(&text).unwrap_or(&TokenType::Ident)`. -/
def keywordLookup (s : String) : TokenType := (KEYWORDS.lookup s).getD .Ident

/-- Result of one `next_token` call: a token with the cursor after it, a
lexical error, or a panic (the `unwrap` on the `f32` parse). -/
inductive TokStep where
  | ok (t : Token) (pos : Nat)
  | err (e : ConstantError)
  | panicked
  deriving DecidableEq, Repr

/-- The `>` arm of `next_token`: after the `self.next()`, the cursor sits at
`nextPos src pos`. -/
def gtToken (src : List Char) (pos : Nat) : TokStep :=
  if charAt src (nextPos src pos) = '=' then
    .ok ⟨.GTEq, (">="), none⟩ (nextPos src (nextPos src pos))
  else if rustIsWhitespace (charAt src (nextPos src pos)) ∨ charAt src (nextPos src pos) = '\x00' then
    .ok ⟨.GT, (">"), none⟩ (nextPos src pos)
  else
    .err (.invalidString (String.mk ['>', charAt src (nextPos src pos)]) (nextPos src pos))

/-- The `<` arm of `next_token` (its error position is `current_pos - 1`,
unlike the `>` arm). -/
def ltToken (src : List Char) (pos : Nat) : TokStep :=
  if charAt src (nextPos src pos) = '=' then
    .ok ⟨.LTEq, ("<="), none⟩ (nextPos src (nextPos src pos))
  else if rustIsWhitespace (charAt src (nextPos src pos)) ∨ charAt src (nextPos src pos) = '\x00' then
    .ok ⟨.LT, ("<"), none⟩ (nextPos src pos)
  else
    .err (.invalidString (String.mk ['<', charAt src (nextPos src pos)]) (nextPos src pos - 1))

/-- The `=` arm of `next_token`. -/
def eqToken (src : List Char) (pos : Nat) : TokStep :=
  if charAt src (nextPos src pos) = '=' then
    .ok ⟨.Eq, ("=="), none⟩ (nextPos src (nextPos src pos))
  else
    .err (.invalidString (String.mk ['=', charAt src (nextPos src pos)]) (nextPos src pos - 1))

/-- The `!` arm of `next_token`. -/
def bangToken (src : List Char) (pos : Nat) : TokStep :=
  if charAt src (nextPos src pos) = '=' then
    .ok ⟨.NotEq, ("!="), none⟩ (nextPos src (nextPos src pos))
  else
    .err (.invalidString (String.mk ['!', charAt src (nextPos src pos)]) (nextPos src pos - 1))

/-- The numeric-literal arm of `next_token`: scan `is_numeric` characters,
optionally a dot and more, slice the fragment, and `unwrap` the `f32`
parse (`panicked` when it fails). -/
def numberToken (src : List Char) (pos : Nat) : TokStep :=
  let b := scanWhilePos src charIsNumeric pos
  let p2 := if charAt src b = '.' then scanWhilePos src charIsNumeric (nextPos src b) else b
  let text := sliceChars src pos p2
  if rustParseF32Accepts text then
    .ok ⟨.Number, String.mk text, some (.number (parseF32Val text))⟩ p2
  else .panicked

/-- The string-literal arm of `next_token`. -/
def stringToken (src : List Char) (pos : Nat) : TokStep :=
  let p1 := nextPos src pos
  let p2 := scanWhilePos src (fun x => !(x == '"') && !(x == '\x00')) p1
  if charAt src p2 = '\x00' then .err .stringNotTerminated
  else
    .ok ⟨.String, sliceStr src (p1 - 1) (p2 + 1), some (.string (sliceStr src p1 p2))⟩
      (nextPos src p2)

/-- The identifier/keyword arm of `next_token`. -/
def identToken (src : List Char) (pos : Nat) : TokStep :=
  let p1 := scanWhilePos src (fun x => rustIsAlphanumeric x || x == '_') pos
  let text := sliceStr src pos p1
  let lit : Option Literal :=
    if text = ("true") then some (.bool true)
    else if text = ("false") then some (.bool false) else none
  .ok ⟨keywordLookup text, text, lit⟩ p1

/-- The branch dispatch of `Lexer::next_token` after comment/whitespace
skipping, at cursor `pos` (one helper per Rust match arm). -/
def tokenAt (src : List Char) (pos : Nat) : TokStep :=
  if charAt src pos = '+' then .ok ⟨.Plus, ("+"), none⟩ (nextPos src pos)
  else if charAt src pos = '-' then .ok ⟨.Minus, ("-"), none⟩ (nextPos src pos)
  else if charAt src pos = '*' then .ok ⟨.Asterisk, ("*"), none⟩ (nextPos src pos)
  else if charAt src pos = '/' then .ok ⟨.Slash, ("/"), none⟩ (nextPos src pos)
  else if charAt src pos = '%' then .ok ⟨.Percent, ("%"), none⟩ (nextPos src pos)
  else if charAt src pos = '>' then gtToken src pos
  else if charAt src pos = '<' then ltToken src pos
  else if charAt src pos = '=' then eqToken src pos
  else if charAt src pos = '!' then bangToken src pos
  else if (charAt src pos).isDigit then numberToken src pos
  else if charAt src pos = '"' then stringToken src pos
  else if (charAt src pos).isAlpha then identToken src pos
  else if charAt src pos = '\x00' then .ok Token.eofTok pos
  else .err (.invalidString (String.mk [charAt src pos]) pos)

/-- `Lexer::next_token`. -/
def nextTokenPos (src : List Char) (pos : Nat) : TokStep :=
  tokenAt src (skipLoopPos src pos)

/-- Result of `Lexer::tokenize`. -/
inductive TokRes where
  | ok (ts : List Token)
  | err (e : ConstantError)
  | panicked
  | fuelOut
  deriving DecidableEq, Repr

/-- The `while self.current_char != '\0'` loop of `Lexer::tokenize`,
fuelled.  For NUL-terminated sources every successful `next_token` strictly
advances the cursor, so `src.length + 1` fuel never runs out (proved
below). -/
def tokenizeLoopGo (src : List Char) : Nat → Nat → TokRes
  | 0, _ => .fuelOut
  | fuel + 1, pos =>
    if charAt src pos = '\x00' then .ok []
    else
      match nextTokenPos src pos with
      | .ok t p' =>
        match tokenizeLoopGo src fuel p' with
        | .ok ts => .ok (t :: ts)
        | r => r
      | .err e => .err e
      | .panicked => .panicked

/-- `Lexer::new`: NUL-terminate the character vector unless it already ends
with NUL. -/
def mkSource (s : String) : List Char :=
  if s.data.getLast? = some '\x00' then s.data else s.data ++ ['\x00']

/-- `Lexer::new(source).tokenize()`. -/
def tokenize (s : String) : TokRes :=
  let src := mkSource s
  tokenizeLoopGo src (src.length + 1) 0

/-! ## Parser (`src/parser/mod.rs`)

The checked-in parser predates `proc`/`call`, `elif`, `%`, `and` and `or`:
its operation tables have no entry for `Percent`, and `statement()` has no
branch for `Proc` or `Call` tokens.  Its three-field `Statement::If`
(conditions, body, optional else) is mapped onto the four-field AST of
`ast.rs` with an empty elif list, a missing else becoming the empty list
(executing an absent else and an empty else are both no-ops). -/

/-- `DOUBLE_OPERATIONS` of `parser/mod.rs`, in insertion order.  (Rust
iterates `HashMap` keys in unspecified order; no theorem depends on the
order of the derived key list.) -/
def DOUBLE_OPERATIONS : List (TokenType × DoubleOpType) :=
  [(.Plus, .Add), (.Minus, .Sub), (.Asterisk, .Mul), (.Slash, .Div),
   (.GT, .GT), (.GTEq, .GTEq), (.LT, .LT), (.LTEq, .LTEq), (.Eq, .Eq),
   (.NotEq, .NotEq), (.Swap, .Swap)]

/-- `SINGLE_OPERATIONS` of `parser/mod.rs`, in insertion order. -/
def SINGLE_OPERATIONS : List (TokenType × SingleOpType) :=
  [(.Print, .Print), (.Dup, .Dup), (.Drop, .Drop)]

/-- Parser cursor state: the (EOF-normalized) token vector, the current and
previous tokens, and the cursor index. -/
structure PState where
  tokens : List Token
  cur : Token
  prev : Token
  pos : Nat
  deriving Repr

/-- `Parser::new`: append an EOF token unless the list already ends with
one, and start with `current_token = previous_token = tokens[0]`. -/
def pInit (tokens : List Token) : PState :=
  let ts := if tokens.getLast? = some Token.eofTok then tokens else tokens ++ [Token.eofTok]
  let c := ts.headD Token.eofTok
  ⟨ts, c, c, 0⟩

/-- `Parser::next`. -/
def pNext (st : PState) : PState :=
  match st.tokens.get? (st.pos + 1) with
  | some t => { st with pos := st.pos + 1, prev := st.cur, cur := t }
  | none => st

/-- Result of one `Parser::statement` call. -/
inductive SRes where
  | ok (s : Statement)
  | err (e : ConstantError)
  | panicked
  | fuelOut
  deriving Repr

/-- Result of a statement-collecting loop. -/
inductive LRes where
  | ok (ss : List Statement)
  | err (e : ConstantError)
  | panicked
  | fuelOut
  deriving Repr

/-- The `while !self.check_token(stop)` statement-collection loops inside
the `If`/`While` branches: a failed inner `statement()` is replaced by
`NonMatchingToken(EOF, eofExp)` when the cursor rests on EOF. -/
def collectUntil (f : PState → PState × SRes) (stop : TokenType → Bool)
    (eofExp : List TokenType) : Nat → PState → PState × LRes
  | 0, st => (st, .fuelOut)
  | fuel + 1, st =>
    if stop st.cur.token_type then (st, .ok [])
    else
      match f st with
      | (st', .ok s) =>
        match collectUntil f stop eofExp fuel st' with
        | (st'', .ok ss) => (st'', .ok (s :: ss))
        | r => r
      | (st', .err e) =>
        if st'.cur.token_type = .EOF then (st', .err (.nonMatchingToken .EOF eofExp))
        else (st', .err e)
      | (st', .panicked) => (st', .panicked)
      | (st', .fuelOut) => (st', .fuelOut)

/-- The else-branch collection loop of the `If` parse: stop on `EndIf` as
the current token, or break after a statement when the previous token was
`EndIf`. -/
def elseLoop (f : PState → PState × SRes) : Nat → PState → PState × LRes
  | 0, st => (st, .fuelOut)
  | fuel + 1, st =>
    if st.cur.token_type = .EndIf then (st, .ok [])
    else
      match f st with
      | (st', .ok s) =>
        if st'.prev.token_type = .EndIf then (st', .ok [s])
        else
          match elseLoop f fuel st' with
          | (st'', .ok ss) => (st'', .ok (s :: ss))
          | r => r
      | (st', .err e) => (st', .err e)
      | (st', .panicked) => (st', .panicked)
      | (st', .fuelOut) => (st', .fuelOut)

/-- One level of `Parser::statement`, with `f` as the recursive call for
sub-statements and `loopFuel` bounding the collection loops. -/
def statementStep (f : PState → PState × SRes) (loopFuel : Nat) (st : PState) :
    PState × SRes :=
  match List.lookup st.cur.token_type SINGLE_OPERATIONS with
  | some o => (pNext st, .ok (.SingleOperation o))
  | none =>
  match List.lookup st.cur.token_type DOUBLE_OPERATIONS with
  | some o => (pNext st, .ok (.DoubleOperation o))
  | none =>
  if st.cur.token_type = .Number ∨ st.cur.token_type = .Bool ∨ st.cur.token_type = .String then
    match st.cur.literal with
    | some v => (pNext st, .ok (.Push (.Literal v)))
    | none => (st, .panicked)
  else if st.cur.token_type = .Bind then
    let st1 := pNext st
    if st1.cur.token_type = .Ident then (pNext st1, .ok (.Bind st1.cur.lexeme))
    else (st1, .err (.nonMatchingToken st1.cur.token_type [.Ident]))
  else if st.cur.token_type = .Ident then
    (pNext st, .ok (.Push (.Ident st.cur.lexeme)))
  else if st.cur.token_type = .If then
    let st1 := pNext st
    match collectUntil f (fun tt => tt == .Do) [.Do] loopFuel st1 with
    | (st2, .ok conds) =>
      if st2.cur.token_type = .Do then
        let st3 := pNext st2
        match collectUntil f (fun tt => tt == .EndIf || tt == .Else) [.EndIf] loopFuel st3 with
        | (st4, .ok stmts) =>
          if st4.cur.token_type = .Else then
            let st5 := pNext st4
            match elseLoop f loopFuel st5 with
            | (st6, .ok es) =>
              let st7 := if st6.prev.token_type = .EndIf then st6 else pNext st6
              (st7, .ok (.If conds stmts [] es))
            | (st6, .err e) => (st6, .err e)
            | (st6, .panicked) => (st6, .panicked)
            | (st6, .fuelOut) => (st6, .fuelOut)
          else
            (pNext st4, .ok (.If conds stmts [] []))
        | (st4, .err e) => (st4, .err e)
        | (st4, .panicked) => (st4, .panicked)
        | (st4, .fuelOut) => (st4, .fuelOut)
      else (st2, .err (.nonMatchingToken st2.cur.token_type [.Do]))
    | (st2, .err e) => (st2, .err e)
    | (st2, .panicked) => (st2, .panicked)
    | (st2, .fuelOut) => (st2, .fuelOut)
  else if st.cur.token_type = .While then
    let st1 := pNext st
    match collectUntil f (fun tt => tt == .Do) [.Do] loopFuel st1 with
    | (st2, .ok conds) =>
      if st2.cur.token_type = .Do then
        let st3 := pNext st2
        match collectUntil f (fun tt => tt == .EndWhile) [.EndWhile] loopFuel st3 with
        | (st4, .ok stmts) =>
          if st4.cur.token_type = .EndWhile then (pNext st4, .ok (.While conds stmts))
          else (st4, .err (.nonMatchingToken st4.cur.token_type [.EndWhile]))
        | (st4, .err e) => (st4, .err e)
        | (st4, .panicked) => (st4, .panicked)
        | (st4, .fuelOut) => (st4, .fuelOut)
      else (st2, .err (.nonMatchingToken st2.cur.token_type [.Do]))
    | (st2, .err e) => (st2, .err e)
    | (st2, .panicked) => (st2, .panicked)
    | (st2, .fuelOut) => (st2, .fuelOut)
  else
    (st, .err (.nonMatchingToken st.cur.token_type
      (SINGLE_OPERATIONS.map Prod.fst ++ DOUBLE_OPERATIONS.map Prod.fst ++
       [.Number, .Bool, .String, .Bind, .Ident, .If])))

/-- `Parser::statement`, fuelled on nesting depth. -/
def statementF : Nat → PState → PState × SRes
  | 0 => fun st => (st, .fuelOut)
  | fuel + 1 => statementStep (statementF fuel) fuel

/-- The `while !self.check_token(EOF)` loop of `Parser::parse`. -/
def parseLoop (f : PState → PState × SRes) : Nat → PState → PState × LRes
  | 0, st => (st, .fuelOut)
  | fuel + 1, st =>
    if st.cur.token_type = .EOF then (st, .ok [])
    else
      match f st with
      | (st', .ok s) =>
        match parseLoop f fuel st' with
        | (st'', .ok ss) => (st'', .ok (s :: ss))
        | r => r
      | (st', .err e) => (st', .err e)
      | (st', .panicked) => (st', .panicked)
      | (st', .fuelOut) => (st', .fuelOut)

inductive ParseRes where
  | ok (prog : List Statement)
  | err (e : ConstantError)
  | panicked
  | fuelOut
  deriving Repr

/-- `Parser::new(tokens).parse()`: collect statements to EOF and append the
`Empty` terminator.  The fuel is generous; it can only run out on nesting
deeper than the token count, which no token list can produce. -/
def parseTokens (tokens : List Token) : ParseRes :=
  let st := pInit tokens
  let fuel := 2 * st.tokens.length + 8
  match parseLoop (statementF fuel) fuel st with
  | (_, .ok ss) => .ok (ss ++ [.Empty])
  | (_, .err e) => .err e
  | (_, .panicked) => .panicked
  | (_, .fuelOut) => .fuelOut

/-! ## Interpreter (`src/interpreter/mod.rs`) -/

/-- Interpreter state: operand stack (list head = stack top), variable
bindings, procedure table, and the lines printed so far (in order). -/
structure IState where
  stack : List Literal
  idents : List (String × Literal)
  procs : List (String × List Statement)
  output : List String

/-- `HashMap::remove` on the association-list model. -/
def removeA {α : Type} (k : String) (l : List (String × α)) : List (String × α) :=
  l.filter (fun p => !(p.1 == k))

/-- `HashMap::insert` on the association-list model (replaces any existing
entry for the key). -/
def insertA {α : Type} (k : String) (v : α) (l : List (String × α)) : List (String × α) :=
  (k, v) :: removeA k l

/-- `HashMap::contains_key`. -/
def containsA {α : Type} (k : String) (l : List (String × α)) : Bool :=
  (List.lookup k l).isSome

/-- Per-statement outcome: success, runtime error, or out of fuel (a Rust
execution that is still running — e.g. an unbounded `while` loop). -/
inductive Outcome where
  | okOut
  | err (e : ConstantError)
  | timeout
  deriving DecidableEq, Repr

/-- The `action` name used in `InvalidStackAmount` for a binary operation
(the `_ => "Comparison"` arm also covers `And`/`Or`, which the interpreter's
match predates). -/
def doubleOpAction : DoubleOpType → String
  | .Add => "Addition"
  | .Sub => "Subtraction"
  | .Mul => "Multiplication"
  | .Div => "Division"
  | .Swap => "Swapping"
  | .Mod => "Modulo"
  | _ => "Comparison"

/-- The `res` match of the `DoubleOperation` arm: evaluate the operation on
`first` and `second` (`Swap` has already pushed `second` back and yields
`first`; comparisons use the derived total order).  The `And`/`Or` arms are
modelled from the spec (see `Literal.andOp`). -/
def evalDouble : DoubleOpType → Literal → Literal → Except ConstantError Literal
  | .Add, first, second => first.addOp second
  | .Sub, first, second => first.subOp second
  | .Mul, first, second => first.mulOp second
  | .Div, first, second => first.divOp second
  | .Mod, first, second => first.remOp second
  | .Swap, first, _ => .ok first
  | .GT, first, second => .ok (.bool (first.gtb second))
  | .GTEq, first, second => .ok (.bool (first.geb second))
  | .LT, first, second => .ok (.bool (first.ltb second))
  | .LTEq, first, second => .ok (.bool (first.leb second))
  | .Eq, first, second => .ok (.bool (first.beq second))
  | .NotEq, first, second => .ok (.bool (!(first.beq second)))
  | .And, first, second => first.andOp second
  | .Or, first, second => first.orOp second

/-- Sequential execution of a statement list (`for statement in ... {
self.interpret_statement(statement)?; }`): stop at the first non-ok
outcome. -/
def runStmts (f : Statement → IState → IState × Outcome) :
    List Statement → IState → IState × Outcome
  | [], st => (st, .okOut)
  | s :: rest, st =>
    match f s st with
    | (st', .okOut) => runStmts f rest st'
    | r => r

/-- Result of walking the elif list: either some elif condition was true (or
something failed) and the `If` statement is finished, or none matched and
the else branch is still to run. -/
inductive ElifStep where
  | fellThrough
  | finished (oc : Outcome)

/-- The elif loop of the `If` arm: run each elif's conditions, pop the
boolean (popping a non-boolean discards it, as `stack.pop()` does), execute
the first body whose condition is true. -/
def runElifs (f : Statement → IState → IState × Outcome) :
    List (List Statement × List Statement) → IState → IState × ElifStep
  | [], st => (st, .fellThrough)
  | (econds, estmts) :: rest, st =>
    match runStmts f econds st with
    | (st1, .okOut) =>
      match st1.stack with
      | .bool b :: r =>
        if b then
          match runStmts f estmts { st1 with stack := r } with
          | (st2, oc) => (st2, .finished oc)
        else runElifs f rest { st1 with stack := r }
      | _ :: r =>
        ({ st1 with stack := r },
         .finished (.err (.invalidOperation ("If statement expects boolean value on top of stack"))))
      | [] =>
        (st1, .finished (.err (.invalidOperation ("If statement expects boolean value on top of stack"))))
    | (st1, oc) => (st1, .finished oc)

/-- One level of `Interpreter::interpret_statement`, with `f` as the
recursive call for nested statements and statement lists. -/
def interpretStep (f : Statement → IState → IState × Outcome) (stmt : Statement)
    (st : IState) : IState × Outcome :=
  match stmt with
  | .Push (.Literal l) => ({ st with stack := l :: st.stack }, .okOut)
  | .Push (.Ident i) =>
    match List.lookup i st.idents with
    | some v => ({ st with stack := v :: st.stack }, .okOut)
    | none => (st, .err (.identDoesNotExist i))
  | .SingleOperation o =>
    let action : String := match o with
      | .Print => "Printing"
      | .Dup => "Duping"
      | .Drop => "Dropping"
    match st.stack with
    | [] => (st, .err (.invalidStackAmount action 1))
    | val :: rest =>
      match o with
      | .Print => ({ st with stack := rest, output := st.output ++ [val.fmt] }, .okOut)
      | .Dup => ({ st with stack := val :: val :: rest }, .okOut)
      | .Drop => ({ st with stack := rest }, .okOut)
  | .DoubleOperation o =>
    let action := doubleOpAction o
    match st.stack with
    | [] => (st, .err (.invalidStackAmount action 2))
    | [_] =>
      -- `second` is popped, popping `first` fails, `second` is pushed back:
      -- the one-element stack is restored unchanged.
      (st, .err (.invalidStackAmount action 2))
    | second :: first :: rest =>
      let stack1 := if o = .Swap then second :: rest else rest
      match evalDouble o first second with
      | .ok v => ({ st with stack := v :: stack1 }, .okOut)
      | .error e => ({ st with stack := second :: first :: stack1 }, .err e)
  | .Bind name =>
    match st.stack with
    | [] => (st, .err (.invalidStackAmount ("Binding") 1))
    | val :: rest =>
      let procs' := if containsA name st.procs then removeA name st.procs else st.procs
      ({ st with stack := rest, idents := insertA name val st.idents, procs := procs' }, .okOut)
  | .If conds stmts elifs elseStmts =>
    match runStmts f conds st with
    | (st1, .okOut) =>
      match st1.stack with
      | .bool b :: rest =>
        if b then runStmts f stmts { st1 with stack := rest }
        else
          match runElifs f elifs { st1 with stack := rest } with
          | (st2, .finished oc) => (st2, oc)
          | (st2, .fellThrough) => runStmts f elseStmts st2
      | _ :: rest =>
        ({ st1 with stack := rest },
         .err (.invalidOperation ("If statement expects boolean value on top of stack")))
      | [] =>
        (st1, .err (.invalidOperation ("If statement expects boolean value on top of stack")))
    | r => r
  | .While conds stmts =>
    match runStmts f conds st with
    | (st1, .okOut) =>
      match st1.stack with
      | .bool b :: rest =>
        if b then
          match runStmts f stmts { st1 with stack := rest } with
          | (st2, .okOut) => f (.While conds stmts) st2
          | r => r
        else ({ st1 with stack := rest }, .okOut)
      | _ :: rest =>
        ({ st1 with stack := rest },
         .err (.invalidOperation ("While statement expects boolean value on top of stack")))
      | [] =>
        (st1, .err (.invalidOperation ("While statement expects boolean value on top of stack")))
    | r => r
  | .Procedure name body =>
    let idents' := if containsA name st.idents then removeA name st.idents else st.idents
    ({ st with idents := idents', procs := insertA name body st.procs }, .okOut)
  | .Call name =>
    match List.lookup name st.procs with
    | some body => runStmts f body st
    | none => (st, .err (.procDoesNotExist name))
  | .Empty => (st, .okOut)

/-- `Interpreter::interpret_statement`, fuelled: nested statement execution
(`if`/`while` bodies, `while` re-iteration, `call` bodies) costs one fuel
unit. -/
def interpretStatement : Nat → Statement → IState → IState × Outcome
  | 0 => fun _ st => (st, .timeout)
  | fuel + 1 => interpretStep (interpretStatement fuel)

/-- `Interpreter::new`: append the `Empty` terminator unless present. -/
def normalizeProgram (prog : List Statement) : List Statement :=
  match prog.getLast? with
  | some .Empty => prog
  | _ => prog ++ [.Empty]

/-- `Interpreter::new(program).interpret()`. -/
def interpret (fuel : Nat) (prog : List Statement) (st : IState) : IState × Outcome :=
  runStmts (interpretStatement fuel) (normalizeProgram prog) st

/-- The empty interpreter state. -/
def initState : IState := ⟨[], [], [], []⟩

/-! ## The pipeline (`src/main.rs`): lexer → parser → interpreter -/

inductive RunRes where
  | ok (output : List String)
  | err (e : ConstantError)
  | panicked
  | fuelOut
  | timeout
  deriving DecidableEq, Repr

/-- Tokenize, parse, interpret; report the printed lines on success. -/
def runPipeline (fuel : Nat) (s : String) : RunRes :=
  match tokenize s with
  | .err e => .err e
  | .panicked => .panicked
  | .fuelOut => .fuelOut
  | .ok toks =>
    match parseTokens toks with
    | .err e => .err e
    | .panicked => .panicked
    | .fuelOut => .fuelOut
    | .ok prog =>
      match interpret fuel prog initState with
      | (st, .okOut) => .ok st.output
      | (_, .err e) => .err e
      | (_, .timeout) => .timeout

/-! ## Predicates used by the claims -/

/-- The environment invariant of spec §3: no name is simultaneously a
variable binding and a procedure. -/
def DisjEnv (st : IState) : Prop :=
  ∀ k, ¬(containsA k st.idents = true ∧ containsA k st.procs = true)

/-- The prefix of a string before its first NUL character. -/
def truncAtNul (s : String) : String :=
  String.mk (s.data.takeWhile (fun c => !(c == '\x00')))

/-! # Theorems

General lemmas about the embedded definitions, followed by one theorem per
claim (with witnesses and counterexamples where required). -/

/-! ## Literal comparison lemmas -/

theorem Literal.cmp_cross {a b : Literal} (h : a.discr ≠ b.discr) :
    a.cmp b = compare a.discr b.discr := by
  cases a <;> cases b <;> first
    | exact absurd rfl h
    | rfl

theorem Literal.beq_cross {a b : Literal} (h : a.discr ≠ b.discr) :
    a.beq b = false := by
  cases a <;> cases b <;> first
    | exact absurd rfl h
    | rfl

theorem compare_beq_gt (x y : Nat) : (compare x y == .gt) = decide (y < x) := by
  by_cases h : y < x
  · rw [Nat.compare_eq_gt.2 h, decide_eq_true h]
    rfl
  · have hne : compare x y ≠ .gt := fun hc => h (Nat.compare_eq_gt.1 hc)
    simp only [h, decide_False]
    cases hc : compare x y
    · rfl
    · rfl
    · exact absurd hc hne

theorem compare_beq_lt (x y : Nat) : (compare x y == .lt) = decide (x < y) := by
  by_cases h : x < y
  · rw [Nat.compare_eq_lt.2 h, decide_eq_true h]
    rfl
  · have hne : compare x y ≠ .lt := fun hc => h (Nat.compare_eq_lt.1 hc)
    simp only [h, decide_False]
    cases hc : compare x y
    · exact absurd hc hne
    · rfl
    · rfl

/-- Every error produced by a binary operation's evaluation is an
`InvalidOperation`. -/
theorem evalDouble_error_invalidOperation {o : DoubleOpType} {a b : Literal}
    {e : ConstantError} (h : evalDouble o a b = .error e) :
    ∃ m, e = .invalidOperation m := by
  cases o <;> cases a <;> cases b <;>
    simp [evalDouble, Literal.addOp, Literal.subOp, Literal.mulOp, Literal.divOp,
      Literal.remOp, Literal.andOp, Literal.orOp] at h <;>
    exact ⟨_, h.symm⟩

/-! ## C1: cross-kind comparisons -/

/-- C1 (corrected, amended form): for two operands of different kinds, `Eq`
pushes `Bool(false)` and `NotEq` pushes `Bool(true)`; each ordering
comparison does NOT fail — it pushes the boolean given by comparing the
variant declaration order `Number < String < Bool` (the behaviour of the
derived `PartialOrd`), with `first` the deeper operand and `second` the
top. -/
theorem C1_cross_kind_comparisons (a b : Literal) (st : IState)
    (rest : List Literal) (fuel : Nat)
    (hst : st.stack = b :: a :: rest) (hk : a.discr ≠ b.discr) :
    interpretStatement (fuel + 1) (.DoubleOperation .Eq) st =
      ({ st with stack := .bool false :: rest }, .okOut) ∧
    interpretStatement (fuel + 1) (.DoubleOperation .NotEq) st =
      ({ st with stack := .bool true :: rest }, .okOut) ∧
    interpretStatement (fuel + 1) (.DoubleOperation .GT) st =
      ({ st with stack := .bool (decide (b.discr < a.discr)) :: rest }, .okOut) ∧
    interpretStatement (fuel + 1) (.DoubleOperation .GTEq) st =
      ({ st with stack := .bool (decide (b.discr ≤ a.discr)) :: rest }, .okOut) ∧
    interpretStatement (fuel + 1) (.DoubleOperation .LT) st =
      ({ st with stack := .bool (decide (a.discr < b.discr)) :: rest }, .okOut) ∧
    interpretStatement (fuel + 1) (.DoubleOperation .LTEq) st =
      ({ st with stack := .bool (decide (a.discr ≤ b.discr)) :: rest }, .okOut) := by
  have hgt : a.gtb b = decide (b.discr < a.discr) := by
    rw [Literal.gtb, Literal.cmp_cross hk, compare_beq_gt]
  have hlt : a.ltb b = decide (a.discr < b.discr) := by
    rw [Literal.ltb, Literal.cmp_cross hk, compare_beq_lt]
  have hge : a.geb b = decide (b.discr ≤ a.discr) := by
    rw [Literal.geb, Literal.cmp_cross hk, compare_beq_lt]
    simp [← decide_not, Nat.not_lt]
  have hle : a.leb b = decide (a.discr ≤ b.discr) := by
    rw [Literal.leb, Literal.cmp_cross hk, compare_beq_gt]
    simp [← decide_not, Nat.not_lt]
  have hbeq := Literal.beq_cross hk
  obtain ⟨stk, idn, prc, out⟩ := st
  simp only [IState.stack] at hst
  subst hst
  refine ⟨?_, ?_, ?_, ?_, ?_, ?_⟩ <;>
    simp [interpretStatement, interpretStep, evalDouble, hgt, hlt, hge, hle, hbeq]

/-- C1 witness: the amended theorem applied to `Number 1` (first/deeper) and
`Bool true` (second/top). -/
theorem C1_cross_kind_comparisons_witness :
    interpretStatement 1 (.DoubleOperation .Eq) ⟨[.bool true, .number 1], [], [], []⟩ =
      (⟨[.bool false], [], [], []⟩, .okOut) ∧
    interpretStatement 1 (.DoubleOperation .NotEq) ⟨[.bool true, .number 1], [], [], []⟩ =
      (⟨[.bool true], [], [], []⟩, .okOut) ∧
    interpretStatement 1 (.DoubleOperation .GT) ⟨[.bool true, .number 1], [], [], []⟩ =
      (⟨[.bool false], [], [], []⟩, .okOut) ∧
    interpretStatement 1 (.DoubleOperation .GTEq) ⟨[.bool true, .number 1], [], [], []⟩ =
      (⟨[.bool false], [], [], []⟩, .okOut) ∧
    interpretStatement 1 (.DoubleOperation .LT) ⟨[.bool true, .number 1], [], [], []⟩ =
      (⟨[.bool true], [], [], []⟩, .okOut) ∧
    interpretStatement 1 (.DoubleOperation .LTEq) ⟨[.bool true, .number 1], [], [], []⟩ =
      (⟨[.bool true], [], [], []⟩, .okOut) :=
  C1_cross_kind_comparisons (.number 1) (.bool true)
    ⟨[.bool true, .number 1], [], [], []⟩ [] 0 rfl (by decide)

/-- C1 counterexample: `GT` executed on `Number 1` (below) and `Bool true`
(top) — operands of different kinds — succeeds and pushes `Bool(false)`
instead of failing with an `InvalidOperation` error as the claim states. -/
theorem C1_claim_counterexample :
    interpretStatement 1 (.DoubleOperation .GT) ⟨[.bool true, .number 1], [], [], []⟩ =
      (⟨[.bool false], [], [], []⟩, .okOut) := rfl

/-! ## C4: stack underflow and operand restoration for binary operations -/

/-- C4 (confirmed): a binary operation on an empty stack fails with
`InvalidStackAmount(action, 2)` and leaves the stack empty; on a one-element
stack it fails with the same error and the element stays (popped `second`
is pushed back); when both operands were popped and evaluation is a type
mismatch, both are pushed back in their original order (state unchanged)
and the returned error is an `InvalidOperation`. -/
theorem C4_binary_underflow_restore (o : DoubleOpType) (st : IState) (fuel : Nat) :
    (st.stack = [] →
      interpretStatement (fuel + 1) (.DoubleOperation o) st =
        (st, .err (.invalidStackAmount (doubleOpAction o) 2))) ∧
    (∀ x, st.stack = [x] →
      interpretStatement (fuel + 1) (.DoubleOperation o) st =
        (st, .err (.invalidStackAmount (doubleOpAction o) 2))) ∧
    (∀ first second rest e, st.stack = second :: first :: rest →
      evalDouble o first second = .error e →
      interpretStatement (fuel + 1) (.DoubleOperation o) st = (st, .err e) ∧
      ∃ m, e = .invalidOperation m) := by
  obtain ⟨stk, idn, prc, out⟩ := st
  refine ⟨?_, ?_, ?_⟩
  · intro h
    simp only [IState.stack] at h
    subst h
    simp [interpretStatement, interpretStep]
  · intro x h
    simp only [IState.stack] at h
    subst h
    simp [interpretStatement, interpretStep]
  · intro first second rest e hst he
    simp only [IState.stack] at hst
    subst hst
    refine ⟨?_, evalDouble_error_invalidOperation he⟩
    by_cases ho : o = .Swap
    · subst ho
      exact absurd he (by simp [evalDouble])
    · simp [interpretStatement, interpretStep, he, ho]

/-- C4 witness: `Add` on the empty stack, on `[Number 1]`, and on a stack
whose top two elements are `Number 1` (below) and `String "a"` (top). -/
theorem C4_binary_underflow_restore_witness :
    interpretStatement 1 (.DoubleOperation .Add) ⟨[], [], [], []⟩ =
      (⟨[], [], [], []⟩, .err (.invalidStackAmount ("Addition") 2)) ∧
    interpretStatement 1 (.DoubleOperation .Add) ⟨[.number 1], [], [], []⟩ =
      (⟨[.number 1], [], [], []⟩, .err (.invalidStackAmount ("Addition") 2)) ∧
    (interpretStatement 1 (.DoubleOperation .Add)
        ⟨[.string ("a"), .number 1], [], [], []⟩ =
      (⟨[.string ("a"), .number 1], [], [], []⟩,
        .err (.invalidOperation ("Can only add numbers to numbers"))) ∧
     ∃ m, ConstantError.invalidOperation ("Can only add numbers to numbers") =
        .invalidOperation m) :=
  ⟨(C4_binary_underflow_restore .Add ⟨[], [], [], []⟩ 0).1 rfl,
   (C4_binary_underflow_restore .Add ⟨[.number 1], [], [], []⟩ 0).2.1 (.number 1) rfl,
   (C4_binary_underflow_restore .Add ⟨[.string ("a"), .number 1], [], [], []⟩ 0).2.2
     (.number 1) (.string ("a")) [] _ rfl rfl⟩

/-! ## C5: `String * Number` -/

/-- C5 (corrected, amended form): multiplying a `String` by a `Number` `n`
repeats the string `n as usize` times — zero for negative `n` and the floor
(truncation) for non-negative `n` within `usize` range, NOT zero for
non-integral `n`; the scenario `"ab" 3 * print` prints `ababab`; and every
arithmetic combination involving a `String` or `Bool` operand other than
`String + String` and `String * Number` fails with `InvalidOperation`
(kinds are compared via `Literal.discr`: 0 = Number, 1 = String,
2 = Bool). -/
theorem C5_string_repeat :
    (∀ (s : String) (q : ℚ),
      Literal.mulOp (.string s) (.number q) =
        .ok (.string (strRepeat s (f32AsUsize q)))) ∧
    (∀ q : ℚ, q < 0 → f32AsUsize q = 0) ∧
    (∀ q : ℚ, 0 ≤ q → q.floor < 2 ^ 64 → (f32AsUsize q : ℤ) = q.floor) ∧
    (runPipeline 10 ("\"ab\" 3 * print") = .ok [("ababab")]) ∧
    (∀ (o : DoubleOpType) (a b : Literal),
      o ∈ ([.Add, .Sub, .Mul, .Div, .Mod] : List DoubleOpType) →
      (a.discr ≠ 0 ∨ b.discr ≠ 0) →
      ¬(o = .Add ∧ a.discr = 1 ∧ b.discr = 1) →
      ¬(o = .Mul ∧ a.discr = 1 ∧ b.discr = 0) →
      ∃ m, evalDouble o a b = .error (.invalidOperation m)) := by
  refine ⟨fun s q => rfl, fun q hq => by simp [f32AsUsize, hq], ?_, by rfl, ?_⟩
  · intro q h0 hlt
    have hfl : 0 ≤ q.floor := Rat.le_floor.2 (by exact_mod_cast h0)
    simp only [f32AsUsize, if_neg (not_lt.2 h0)]
    omega
  · intro o a b ho hsb hna hnm
    simp only [List.mem_cons, List.not_mem_nil, or_false] at ho
    rcases ho with rfl | rfl | rfl | rfl | rfl <;> cases a <;> cases b <;>
      simp_all [evalDouble, Literal.addOp, Literal.subOp, Literal.mulOp,
        Literal.divOp, Literal.remOp, Literal.discr]

/-- C5 witness: the amended theorem applied to `"ab" * 3`, to a negative
multiplier, to the in-range cast at `3`, and to `String - Number`. -/
theorem C5_string_repeat_witness :
    Literal.mulOp (.string ("ab")) (.number 3) =
      .ok (.string (strRepeat ("ab") (f32AsUsize 3))) ∧
    f32AsUsize (-1) = 0 ∧
    (f32AsUsize 3 : ℤ) = (3 : ℚ).floor ∧
    (∃ m, evalDouble .Sub (.string ("a")) (.number 1) =
      .error (.invalidOperation m)) :=
  ⟨C5_string_repeat.1 ("ab") 3,
   C5_string_repeat.2.1 (-1) (by norm_num),
   C5_string_repeat.2.2.1 3 (by norm_num) (by decide),
   C5_string_repeat.2.2.2.2 .Sub (.string ("a")) (.number 1)
     (by decide) (by decide) (by decide) (by decide)⟩

/-- C5 counterexample: multiplying `"ab"` by the non-integral number `5/2`
yields `"abab"` (floor/truncation), not the empty string that "non-integral
`n` treated as zero repeats" would give. -/
theorem C5_nonintegral_counterexample :
    Literal.mulOp (.string ("ab")) (.number ((5 : ℚ)/2)) = .ok (.string ("abab")) ∧
    ("abab" : String) ≠ ("") := by
  have h : f32AsUsize ((5 : ℚ)/2) = 2 := by
    unfold f32AsUsize
    rw [if_neg (by norm_num), Rat.floor_def']
    norm_num
    decide
  refine ⟨?_, by decide⟩
  calc Literal.mulOp (.string ("ab")) (.number ((5 : ℚ)/2))
      = .ok (.string (strRepeat ("ab") (f32AsUsize ((5 : ℚ)/2)))) := rfl
    _ = .ok (.string ("abab")) := by rw [h]; rfl

/-! ## Association-list lemmas for the environment model -/

theorem lookup_removeA_self {α : Type} (k : String) (l : List (String × α)) :
    List.lookup k (removeA k l) = none := by
  induction l with
  | nil => rfl
  | cons p t ih =>
    rcases p with ⟨a, v⟩
    by_cases h : a = k
    · subst h
      simpa [removeA, List.filter_cons] using ih
    · have hb : (a == k) = false := beq_eq_false_iff_ne.2 h
      have hb' : (k == a) = false := beq_eq_false_iff_ne.2 (Ne.symm h)
      simp only [removeA, List.filter_cons, hb, Bool.not_false, if_true, List.lookup, hb']
      exact ih

theorem lookup_removeA_ne {α : Type} {k' k : String} (h : k' ≠ k)
    (l : List (String × α)) :
    List.lookup k' (removeA k l) = List.lookup k' l := by
  induction l with
  | nil => rfl
  | cons p t ih =>
    rcases p with ⟨a, v⟩
    by_cases ha : a = k
    · subst ha
      have hb : (k' == a) = false := beq_eq_false_iff_ne.2 h
      simp only [removeA, List.filter_cons, beq_self_eq_true, Bool.not_true, if_false,
        List.lookup, hb]
      exact ih
    · have hb : (a == k) = false := beq_eq_false_iff_ne.2 ha
      simp only [removeA, List.filter_cons, hb, Bool.not_false, if_true, List.lookup]
      cases hk : (k' == a)
      · simpa [removeA] using ih
      · rfl

theorem lookup_insertA_self {α : Type} (k : String) (v : α) (l : List (String × α)) :
    List.lookup k (insertA k v l) = some v := by
  simp [insertA, List.lookup]

theorem lookup_insertA_ne {α : Type} {k' k : String} (h : k' ≠ k) (v : α)
    (l : List (String × α)) :
    List.lookup k' (insertA k v l) = List.lookup k' l := by
  have hb : (k' == k) = false := beq_eq_false_iff_ne.2 h
  simp only [insertA, List.lookup, hb]
  exact lookup_removeA_ne h l

/-- Transfer `DisjEnv` across states with the same environments. -/
theorem DisjEnv_of_eq {st st' : IState} (hid : st'.idents = st.idents)
    (hpr : st'.procs = st.procs) (h : DisjEnv st) : DisjEnv st' := by
  intro k hk
  rw [hid, hpr] at hk
  exact h k hk

/-! ## C6: names are never a variable and a procedure at once -/

theorem runStmts_disj {f : Statement → IState → IState × Outcome}
    (hf : ∀ s st, DisjEnv st → DisjEnv (f s st).1) :
    ∀ (ss : List Statement) (st : IState), DisjEnv st → DisjEnv (runStmts f ss st).1 := by
  intro ss
  induction ss with
  | nil => intro st h; exact h
  | cons s rest ih =>
    intro st h
    have h' := hf s st h
    rcases hfs : f s st with ⟨st', oc⟩
    rw [hfs] at h'
    cases oc
    · simp only [runStmts, hfs]
      exact ih st' h'
    · simp only [runStmts, hfs]
      exact h'
    · simp only [runStmts, hfs]
      exact h'

theorem runElifs_disj {f : Statement → IState → IState × Outcome}
    (hf : ∀ s st, DisjEnv st → DisjEnv (f s st).1) :
    ∀ (elifs : List (List Statement × List Statement)) (st : IState),
      DisjEnv st → DisjEnv (runElifs f elifs st).1 := by
  intro elifs
  induction elifs with
  | nil => intro st h; exact h
  | cons p rest ih =>
    rcases p with ⟨econds, estmts⟩
    intro st h
    have h1 := runStmts_disj hf econds st h
    rcases hr : runStmts f econds st with ⟨st1, oc⟩
    rw [hr] at h1
    cases oc with
    | okOut =>
      cases hstk : st1.stack with
      | nil => simp only [runElifs, hr, hstk]; exact h1
      | cons v r =>
        cases v with
        | number n => simp only [runElifs, hr, hstk]; exact h1
        | string s => simp only [runElifs, hr, hstk]; exact h1
        | bool b =>
          cases b
          · simp only [runElifs, hr, hstk, if_neg Bool.false_ne_true]
            exact ih _ (DisjEnv_of_eq rfl rfl h1)
          · simp only [runElifs, hr, hstk, if_pos rfl]
            have h2 := runStmts_disj hf estmts { st1 with stack := r }
              (DisjEnv_of_eq rfl rfl h1)
            rcases hr2 : runStmts f estmts { st1 with stack := r } with ⟨st2, oc2⟩
            rw [hr2] at h2
            simp only [hr2]
            exact h2
    | err e => simp only [runElifs, hr]; exact h1
    | timeout => simp only [runElifs, hr]; exact h1

theorem interpretStep_disj {f : Statement → IState → IState × Outcome}
    (hf : ∀ s st, DisjEnv st → DisjEnv (f s st).1) :
    ∀ (stmt : Statement) (st : IState), DisjEnv st → DisjEnv (interpretStep f stmt st).1 := by
  intro stmt st h
  cases stmt with
  | Push v =>
    cases v with
    | Literal l => exact DisjEnv_of_eq rfl rfl h
    | Ident i =>
      cases hl : List.lookup i st.idents with
      | some w => simp only [interpretStep, hl]; exact DisjEnv_of_eq rfl rfl h
      | none => simp only [interpretStep, hl]; exact h
  | SingleOperation o =>
    cases hstk : st.stack with
    | nil => simp only [interpretStep, hstk]; exact h
    | cons v r =>
      cases o <;> simp only [interpretStep, hstk] <;> exact DisjEnv_of_eq rfl rfl h
  | DoubleOperation o =>
    cases hstk : st.stack with
    | nil => simp only [interpretStep, hstk]; exact h
    | cons v r =>
      cases r with
      | nil => simp only [interpretStep, hstk]; exact h
      | cons v2 r2 =>
        cases he : evalDouble o v2 v with
        | ok w => simp only [interpretStep, hstk, he]; exact DisjEnv_of_eq rfl rfl h
        | error e => simp only [interpretStep, hstk, he]; exact DisjEnv_of_eq rfl rfl h
  | Bind name =>
    cases hstk : st.stack with
    | nil => simp only [interpretStep, hstk]; exact h
    | cons v r =>
      simp only [interpretStep, hstk]
      intro k hk
      rcases hk with ⟨hki, hkp⟩
      have hki2 : containsA k (insertA name v st.idents) = true := hki
      have hkp2 : containsA k
          (if containsA name st.procs then removeA name st.procs else st.procs) = true := hkp
      by_cases hkn : k = name
      · subst hkn
        by_cases hc : containsA k st.procs = true
        · rw [if_pos hc] at hkp2
          simp [containsA, lookup_removeA_self] at hkp2
        · rw [if_neg hc] at hkp2
          exact hc hkp2
      · have hki' : containsA k st.idents = true := by
          simpa [containsA, lookup_insertA_ne hkn] using hki2
        have hkp' : containsA k st.procs = true := by
          by_cases hc : containsA name st.procs = true
          · rw [if_pos hc] at hkp2
            simpa [containsA, lookup_removeA_ne hkn] using hkp2
          · rwa [if_neg hc] at hkp2
        exact h k ⟨hki', hkp'⟩
  | If conds stmts elifs elseSs =>
    have h1 := runStmts_disj hf conds st h
    rcases hr : runStmts f conds st with ⟨st1, oc⟩
    rw [hr] at h1
    cases oc with
    | okOut =>
      cases hstk : st1.stack with
      | nil => simp only [interpretStep, hr, hstk]; exact h1
      | cons v r =>
        cases v with
        | number n => simp only [interpretStep, hr, hstk]; exact DisjEnv_of_eq rfl rfl h1
        | string s => simp only [interpretStep, hr, hstk]; exact DisjEnv_of_eq rfl rfl h1
        | bool b =>
          cases b
          · simp only [interpretStep, hr, hstk, if_neg Bool.false_ne_true]
            have h2 := runElifs_disj hf elifs { st1 with stack := r }
              (DisjEnv_of_eq rfl rfl h1)
            rcases hre : runElifs f elifs { st1 with stack := r } with ⟨st2, es⟩
            rw [hre] at h2
            cases es with
            | fellThrough =>
              simp only [hre]
              exact runStmts_disj hf elseSs st2 h2
            | finished oc2 => simp only [hre]; exact h2
          · simp only [interpretStep, hr, hstk, if_pos rfl]
            exact runStmts_disj hf stmts { st1 with stack := r }
              (DisjEnv_of_eq rfl rfl h1)
    | err e => simp only [interpretStep, hr]; exact h1
    | timeout => simp only [interpretStep, hr]; exact h1
  | While conds stmts =>
    have h1 := runStmts_disj hf conds st h
    rcases hr : runStmts f conds st with ⟨st1, oc⟩
    rw [hr] at h1
    cases oc with
    | okOut =>
      cases hstk : st1.stack with
      | nil => simp only [interpretStep, hr, hstk]; exact h1
      | cons v r =>
        cases v with
        | number n => simp only [interpretStep, hr, hstk]; exact DisjEnv_of_eq rfl rfl h1
        | string s => simp only [interpretStep, hr, hstk]; exact DisjEnv_of_eq rfl rfl h1
        | bool b =>
          cases b
          · simp only [interpretStep, hr, hstk, if_neg Bool.false_ne_true]
            exact DisjEnv_of_eq rfl rfl h1
          · simp only [interpretStep, hr, hstk, if_pos rfl]
            have h2 := runStmts_disj hf stmts { st1 with stack := r }
              (DisjEnv_of_eq rfl rfl h1)
            rcases hr2 : runStmts f stmts { st1 with stack := r } with ⟨st2, oc2⟩
            rw [hr2] at h2
            cases oc2 with
            | okOut =>
              simp only [hr2]
              exact hf _ st2 h2
            | err e => simp only [hr2]; exact h2
            | timeout => simp only [hr2]; exact h2
    | err e => simp only [interpretStep, hr]; exact h1
    | timeout => simp only [interpretStep, hr]; exact h1
  | Procedure name body =>
    simp only [interpretStep]
    intro k hk
    rcases hk with ⟨hki, hkp⟩
    have hkp2 : containsA k (insertA name body st.procs) = true := hkp
    have hki2 : containsA k
        (if containsA name st.idents then removeA name st.idents else st.idents) = true := hki
    by_cases hkn : k = name
    · subst hkn
      by_cases hc : containsA k st.idents = true
      · rw [if_pos hc] at hki2
        simp [containsA, lookup_removeA_self] at hki2
      · rw [if_neg hc] at hki2
        exact hc hki2
    · have hkp' : containsA k st.procs = true := by
        simpa [containsA, lookup_insertA_ne hkn] using hkp2
      have hki' : containsA k st.idents = true := by
        by_cases hc : containsA name st.idents = true
        · rw [if_pos hc] at hki2
          simpa [containsA, lookup_removeA_ne hkn] using hki2
        · rwa [if_neg hc] at hki2
      exact h k ⟨hki', hkp'⟩
  | Call name =>
    cases hl : List.lookup name st.procs with
    | some body => simp only [interpretStep, hl]; exact runStmts_disj hf body st h
    | none => simp only [interpretStep, hl]; exact h
  | Empty => exact h

theorem interpretStatement_disj :
    ∀ (fuel : Nat) (s : Statement) (st : IState),
      DisjEnv st → DisjEnv (interpretStatement fuel s st).1 := by
  intro fuel
  induction fuel with
  | zero => intro s st h; exact h
  | succ n ih => exact interpretStep_disj ih

/-- C6 (confirmed): executing any statement preserves disjointness of the
variable-binding map and the procedure table (so from the empty environment
they never share a key); `Bind(name)` removes any procedure under `name`
and stores the popped value; `Procedure(name, body)` removes any variable
binding of `name` and stores the body; and a `Call` of a name that was just
re-bound as a variable fails with `ProcDoesNotExist`. -/
theorem C6_env_disjoint :
    (∀ (fuel : Nat) (s : Statement) (st : IState),
      DisjEnv st → DisjEnv (interpretStatement fuel s st).1) ∧
    (∀ (fuel : Nat) (name : String) (st : IState) (v : Literal) (rest : List Literal),
      st.stack = v :: rest →
      List.lookup name (interpretStatement (fuel + 1) (.Bind name) st).1.procs = none ∧
      List.lookup name (interpretStatement (fuel + 1) (.Bind name) st).1.idents = some v) ∧
    (∀ (fuel : Nat) (name : String) (body : List Statement) (st : IState),
      List.lookup name (interpretStatement (fuel + 1) (.Procedure name body) st).1.idents
        = none ∧
      List.lookup name (interpretStatement (fuel + 1) (.Procedure name body) st).1.procs
        = some body) ∧
    (∀ (fuel fuel2 : Nat) (name : String) (st : IState) (v : Literal)
        (rest : List Literal),
      st.stack = v :: rest →
      interpretStatement (fuel2 + 1) (.Call name)
          ((interpretStatement (fuel + 1) (.Bind name) st).1) =
        ((interpretStatement (fuel + 1) (.Bind name) st).1,
          .err (.procDoesNotExist name))) := by
  have hbind : ∀ (fuel : Nat) (name : String) (st : IState) (v : Literal)
      (rest : List Literal), st.stack = v :: rest →
      List.lookup name (interpretStatement (fuel + 1) (.Bind name) st).1.procs = none ∧
      List.lookup name (interpretStatement (fuel + 1) (.Bind name) st).1.idents = some v := by
    intro fuel name st v rest hst
    obtain ⟨stk, idn, prc, out⟩ := st
    simp only [IState.stack] at hst
    subst hst
    constructor
    · show List.lookup name (if containsA name prc then removeA name prc else prc) = none
      by_cases hc : containsA name prc = true
      · rw [if_pos hc]
        exact lookup_removeA_self name prc
      · rw [if_neg hc]
        exact Option.not_isSome_iff_eq_none.1 hc
    · exact lookup_insertA_self name v idn
  refine ⟨interpretStatement_disj, hbind, ?_, ?_⟩
  · intro fuel name body st
    obtain ⟨stk, idn, prc, out⟩ := st
    constructor
    · show List.lookup name (if containsA name idn then removeA name idn else idn) = none
      by_cases hc : containsA name idn = true
      · rw [if_pos hc]
        exact lookup_removeA_self name idn
      · rw [if_neg hc]
        exact Option.not_isSome_iff_eq_none.1 hc
    · exact lookup_insertA_self name body prc
  · intro fuel fuel2 name st v rest hst
    have hnone := (hbind fuel name st v rest hst).1
    show interpretStep (interpretStatement fuel2) (.Call name) _ = _
    simp [interpretStep, hnone]

/-- C6 witness: bind `x` over a state in which `x` is a procedure, then
call `x`. -/
theorem C6_env_disjoint_witness :
    DisjEnv ((interpretStatement 1 (.Bind ("x"))
      ⟨[.number 1], [], [(("x"), [Statement.Empty])], []⟩).1) ∧
    List.lookup ("x") ((interpretStatement 1 (.Bind ("x"))
      ⟨[.number 1], [], [(("x"), [Statement.Empty])], []⟩).1).procs = none ∧
    interpretStatement 1 (.Call ("x"))
        ((interpretStatement 1 (.Bind ("x"))
          ⟨[.number 1], [], [(("x"), [Statement.Empty])], []⟩).1) =
      ((interpretStatement 1 (.Bind ("x"))
          ⟨[.number 1], [], [(("x"), [Statement.Empty])], []⟩).1,
        .err (.procDoesNotExist ("x"))) :=
  ⟨C6_env_disjoint.1 1 (.Bind ("x")) ⟨[.number 1], [], [(("x"), [Statement.Empty])], []⟩
      (by intro k hk; simp [containsA] at hk),
   (C6_env_disjoint.2.1 0 ("x") ⟨[.number 1], [], [(("x"), [Statement.Empty])], []⟩
      (.number 1) [] rfl).1,
   C6_env_disjoint.2.2.2 0 0 ("x") ⟨[.number 1], [], [(("x"), [Statement.Empty])], []⟩
      (.number 1) [] rfl⟩

/-! ## C2: `And`/`Or` -/

/-- C2 (corrected, amended form): neither `and` nor `or` is a lexer keyword
and no token maps to an `And`/`Or` operation in the parser's tables, so
`"true false and print"` lexes `and` as an identifier and the pipeline
fails with `IdentDoesNotExist("and")` (printing nothing) instead of
printing `false`.  The `And`/`Or` statement semantics themselves — modelled
from the spec, since no evaluation arm for them exists under `src/` — pop
two operands, fail with `InvalidOperation` unless both are `Bool` (kind 2
in `Literal.discr`), and push the conjunction/disjunction. -/
theorem C2_and_or :
    (runPipeline 10 ("true false and print") = .err (.identDoesNotExist ("and"))) ∧
    (∀ (x y : Bool) (st : IState) (rest : List Literal) (fuel : Nat),
      st.stack = .bool y :: .bool x :: rest →
      interpretStatement (fuel + 1) (.DoubleOperation .And) st =
        ({ st with stack := .bool (x && y) :: rest }, .okOut) ∧
      interpretStatement (fuel + 1) (.DoubleOperation .Or) st =
        ({ st with stack := .bool (x || y) :: rest }, .okOut)) ∧
    (∀ a b : Literal, a.discr ≠ 2 ∨ b.discr ≠ 2 →
      (∃ m, Literal.andOp a b = .error (.invalidOperation m)) ∧
      (∃ m, Literal.orOp a b = .error (.invalidOperation m))) := by
  refine ⟨by rfl, ?_, ?_⟩
  · intro x y st rest fuel hst
    obtain ⟨stk, idn, prc, out⟩ := st
    simp only [IState.stack] at hst
    subst hst
    constructor <;>
      simp [interpretStatement, interpretStep, evalDouble, Literal.andOp, Literal.orOp]
  · intro a b hab
    cases a <;> cases b <;>
      simp_all [Literal.andOp, Literal.orOp, Literal.discr]

/-- C2 witness: `And` on two booleans, and `And`/`Or` on a number
operand. -/
theorem C2_and_or_witness :
    interpretStatement 1 (.DoubleOperation .And)
        ⟨[.bool false, .bool true], [], [], []⟩ =
      (⟨[.bool false], [], [], []⟩, .okOut) ∧
    (∃ m, Literal.andOp (.number 1) (.bool true) = .error (.invalidOperation m)) :=
  ⟨(C2_and_or.2.1 true false ⟨[.bool false, .bool true], [], [], []⟩ [] 0 rfl).1,
   (C2_and_or.2.2 (.number 1) (.bool true) (Or.inl (by decide))).1⟩

/-- C2 counterexample: running the pipeline on the claim's scenario input
`"true false and print"` does not succeed printing `"false"`; it fails with
`IdentDoesNotExist("and")`. -/
theorem C2_scenario_counterexample :
    runPipeline 10 ("true false and print") = .err (.identDoesNotExist ("and")) := rfl

/-! ## C3: procedures and `call` -/

/-- C3 (corrected, amended form): the parser accepts no `proc`/`call`
syntax, so the claim's scenario program fails to parse with a
`NonMatchingToken` error at the `Proc` token; the interpreter's `Call`
statement itself does execute the stored body inline against the caller's
current state — stack, bindings and output included, with no separate call
frame — and fails with `ProcDoesNotExist` exactly when the name is absent
from the procedure table. -/
theorem C3_call_semantics :
    (∃ expected, runPipeline 10 ("10 bind x proc p do x 1 + end call p print") =
      .err (.nonMatchingToken .Proc expected)) ∧
    (∀ (fuel : Nat) (name : String) (st : IState) (body : List Statement),
      List.lookup name st.procs = some body →
      interpretStatement (fuel + 1) (.Call name) st =
        runStmts (interpretStatement fuel) body st) ∧
    (∀ (fuel : Nat) (name : String) (st : IState),
      List.lookup name st.procs = none →
      interpretStatement (fuel + 1) (.Call name) st =
        (st, .err (.procDoesNotExist name))) := by
  refine ⟨⟨_, rfl⟩, ?_, ?_⟩
  · intro fuel name st body hl
    show interpretStep (interpretStatement fuel) (.Call name) st = _
    simp [interpretStep, hl]
  · intro fuel name st hl
    show interpretStep (interpretStatement fuel) (.Call name) st = _
    simp [interpretStep, hl]

/-- C3 witness: a `Call` of a registered procedure and of an absent one. -/
theorem C3_call_semantics_witness :
    interpretStatement 1 (.Call ("p")) ⟨[], [], [(("p"), [Statement.Empty])], []⟩ =
      runStmts (interpretStatement 0) [Statement.Empty]
        ⟨[], [], [(("p"), [Statement.Empty])], []⟩ ∧
    interpretStatement 1 (.Call ("q")) ⟨[], [], [], []⟩ =
      (⟨[], [], [], []⟩, .err (.procDoesNotExist ("q"))) :=
  ⟨C3_call_semantics.2.1 0 ("p") ⟨[], [], [(("p"), [Statement.Empty])], []⟩
      [Statement.Empty] rfl,
   C3_call_semantics.2.2 0 ("q") ⟨[], [], [], []⟩ rfl⟩

/-- C3 counterexample: the claim's scenario program does not run and print
`"11"`; parsing already fails at the `proc` token.  (The expected-token
list is this model's deterministic rendering of the parser's `HashMap` key
iteration, whose order Rust leaves unspecified; the operative content is
the `NonMatchingToken` failure at the `Proc` token.) -/
theorem C3_scenario_counterexample :
    runPipeline 10 ("10 bind x proc p do x 1 + end call p print") =
      .err (.nonMatchingToken .Proc
        [.Print, .Dup, .Drop, .Plus, .Minus, .Asterisk, .Slash, .GT, .GTEq,
         .LT, .LTEq, .Eq, .NotEq, .Swap, .Number, .Bool, .String, .Bind,
         .Ident, .If]) := rfl

/-! ## Lexer scanning lemmas -/

/-- The one-step loop equation of `scanWhilePos` — exactly the Rust
`while p(current) { next() }` unfolding. -/
theorem scanWhilePos_step (src : List Char) (p : Char → Bool) (pos : Nat) :
    scanWhilePos src p pos =
      if p (charAt src pos) ∧ pos + 1 < src.length then scanWhilePos src p (pos + 1)
      else pos := by
  unfold scanWhilePos
  rcases hf : src.length - pos with _ | k
  · have hnl : ¬(pos + 1 < src.length) := by omega
    rw [if_neg (fun hand => hnl hand.2)]
    rfl
  · show (if p (charAt src pos) ∧ pos + 1 < src.length then scanGo src p k (pos + 1) else pos) = _
    by_cases h : p (charAt src pos) ∧ pos + 1 < src.length
    · rw [if_pos h, if_pos h]
      have hk : src.length - (pos + 1) = k := by omega
      rw [hk]
    · rw [if_neg h, if_neg h]

theorem scanWhilePos_stop {src : List Char} {p : Char → Bool} {pos : Nat}
    (h : p (charAt src pos) = false) : scanWhilePos src p pos = pos := by
  rw [scanWhilePos_step, if_neg]
  intro hand
  rw [h] at hand
  exact absurd hand.1 (by decide)

/-- The comment/whitespace skipping loop is the identity when the current
character is neither whitespace nor the start of a `//` comment. -/
theorem skipLoopPos_id {src : List Char} {pos : Nat}
    (hws : rustIsWhitespace (charAt src pos) = false)
    (hcm : ¬(charAt src pos = '/' ∧ charAt src (pos + 1) = '/')) :
    skipLoopPos src pos = pos := by
  unfold skipLoopPos
  rcases hf : src.length + 1 - pos with _ | k
  · rfl
  · show skipLoopGo src (k + 1) pos = pos
    simp only [skipLoopGo, skipCommentsPos, if_neg hcm, skipWhitespacePos, hws,
      scanWhilePos_stop hws, if_neg Bool.false_ne_true]

theorem nextPos_lt {src : List Char} {pos : Nat} (h : pos + 1 < src.length) :
    nextPos src pos = pos + 1 := if_pos h

/-! ## C8: two-character operator lexing -/

/-- C8 (confirmed): with the cursor on `>` or `<` (and at least one more
character in the NUL-terminated source), a following `=` yields the
two-character comparison token; a following whitespace or NUL yields the
one-character token; anything else is an `InvalidString` error carrying the
two-character fragment and a position.  A `=` or `!` not followed by `=` is
likewise an `InvalidString` error with the fragment and a position. -/
theorem C8_two_char_operators (src : List Char) (pos : Nat)
    (hlt : pos + 1 < src.length) :
    (charAt src pos = '>' →
      (charAt src (pos + 1) = '=' →
        ∃ p, nextTokenPos src pos = .ok ⟨.GTEq, (">="), none⟩ p) ∧
      (rustIsWhitespace (charAt src (pos + 1)) = true ∨ charAt src (pos + 1) = '\x00' →
        nextTokenPos src pos = .ok ⟨.GT, (">"), none⟩ (pos + 1)) ∧
      (rustIsWhitespace (charAt src (pos + 1)) = false → charAt src (pos + 1) ≠ '=' →
        charAt src (pos + 1) ≠ '\x00' →
        nextTokenPos src pos =
          .err (.invalidString (String.mk ['>', charAt src (pos + 1)]) (pos + 1)))) ∧
    (charAt src pos = '<' →
      (charAt src (pos + 1) = '=' →
        ∃ p, nextTokenPos src pos = .ok ⟨.LTEq, ("<="), none⟩ p) ∧
      (rustIsWhitespace (charAt src (pos + 1)) = true ∨ charAt src (pos + 1) = '\x00' →
        nextTokenPos src pos = .ok ⟨.LT, ("<"), none⟩ (pos + 1)) ∧
      (rustIsWhitespace (charAt src (pos + 1)) = false → charAt src (pos + 1) ≠ '=' →
        charAt src (pos + 1) ≠ '\x00' →
        nextTokenPos src pos =
          .err (.invalidString (String.mk ['<', charAt src (pos + 1)]) pos))) ∧
    (charAt src pos = '=' →
      (charAt src (pos + 1) = '=' →
        ∃ p, nextTokenPos src pos = .ok ⟨.Eq, ("=="), none⟩ p) ∧
      (charAt src (pos + 1) ≠ '=' →
        nextTokenPos src pos =
          .err (.invalidString (String.mk ['=', charAt src (pos + 1)]) pos))) ∧
    (charAt src pos = '!' →
      (charAt src (pos + 1) = '=' →
        ∃ p, nextTokenPos src pos = .ok ⟨.NotEq, ("!="), none⟩ p) ∧
      (charAt src (pos + 1) ≠ '=' →
        nextTokenPos src pos =
          .err (.invalidString (String.mk ['!', charAt src (pos + 1)]) pos))) := by
  refine ⟨?_, ?_, ?_, ?_⟩ <;> intro hc
  all_goals
    have hid : skipLoopPos src pos = pos := by
      refine skipLoopPos_id (by rw [hc]; rfl) ?_
      rw [hc]
      rintro ⟨h1, h2⟩
      exact absurd h1 (by decide)
  · refine ⟨fun he => ⟨nextPos src (pos + 1), ?_⟩, fun hw => ?_, fun hws hne hnn => ?_⟩
    · simp [nextTokenPos, hid, tokenAt, gtToken, ltToken, eqToken, bangToken, hc, nextPos_lt hlt, he]
    · have hne : ¬(charAt src (pos + 1) = '=') := by
        rcases hw with hw | hw
        · intro he; rw [he] at hw; exact absurd hw (by decide)
        · intro he; rw [he] at hw; exact absurd hw (by decide)
      simp [nextTokenPos, hid, tokenAt, gtToken, ltToken, hc, nextPos_lt hlt, hne, hw]
    · simp [nextTokenPos, hid, tokenAt, gtToken, ltToken, hc, nextPos_lt hlt, hne, hws, hnn]
  · refine ⟨fun he => ⟨nextPos src (pos + 1), ?_⟩, fun hw => ?_, fun hws hne hnn => ?_⟩
    · simp [nextTokenPos, hid, tokenAt, gtToken, ltToken, eqToken, bangToken, hc, nextPos_lt hlt, he]
    · have hne : ¬(charAt src (pos + 1) = '=') := by
        rcases hw with hw | hw
        · intro he; rw [he] at hw; exact absurd hw (by decide)
        · intro he; rw [he] at hw; exact absurd hw (by decide)
      simp [nextTokenPos, hid, tokenAt, gtToken, ltToken, hc, nextPos_lt hlt, hne, hw]
    · simp [nextTokenPos, hid, tokenAt, gtToken, ltToken, hc, nextPos_lt hlt, hne, hws, hnn]
  · refine ⟨fun he => ⟨nextPos src (pos + 1), ?_⟩, fun hne => ?_⟩
    · simp [nextTokenPos, hid, tokenAt, gtToken, ltToken, eqToken, bangToken, hc, nextPos_lt hlt, he]
    · simp [nextTokenPos, hid, tokenAt, eqToken, bangToken, hc, nextPos_lt hlt, hne]
  · refine ⟨fun he => ⟨nextPos src (pos + 1), ?_⟩, fun hne => ?_⟩
    · simp [nextTokenPos, hid, tokenAt, gtToken, ltToken, eqToken, bangToken, hc, nextPos_lt hlt, he]
    · simp [nextTokenPos, hid, tokenAt, eqToken, bangToken, hc, nextPos_lt hlt, hne]

/-- C8 witness: each case at a concrete three-character source. -/
theorem C8_two_char_operators_witness :
    (∃ p, nextTokenPos ['>', '=', '\x00'] 0 = .ok ⟨.GTEq, (">="), none⟩ p) ∧
    nextTokenPos ['>', ' ', '\x00'] 0 = .ok ⟨.GT, (">"), none⟩ 1 ∧
    nextTokenPos ['>', 'a', '\x00'] 0 =
      .err (.invalidString (String.mk ['>', 'a']) 1) ∧
    (∃ p, nextTokenPos ['<', '=', '\x00'] 0 = .ok ⟨.LTEq, ("<="), none⟩ p) ∧
    nextTokenPos ['<', 'a', '\x00'] 0 =
      .err (.invalidString (String.mk ['<', 'a']) 0) ∧
    nextTokenPos ['=', 'a', '\x00'] 0 =
      .err (.invalidString (String.mk ['=', 'a']) 0) ∧
    nextTokenPos ['!', 'a', '\x00'] 0 =
      .err (.invalidString (String.mk ['!', 'a']) 0) :=
  ⟨((C8_two_char_operators ['>', '=', '\x00'] 0 (by decide)).1 rfl).1 rfl,
   ((C8_two_char_operators ['>', ' ', '\x00'] 0 (by decide)).1 rfl).2.1
     (Or.inl (by decide)),
   ((C8_two_char_operators ['>', 'a', '\x00'] 0 (by decide)).1 rfl).2.2
     (by decide) (by decide) (by decide),
   ((C8_two_char_operators ['<', '=', '\x00'] 0 (by decide)).2.1 rfl).1 rfl,
   ((C8_two_char_operators ['<', 'a', '\x00'] 0 (by decide)).2.1 rfl).2.2
     (by decide) (by decide) (by decide),
   ((C8_two_char_operators ['=', 'a', '\x00'] 0 (by decide)).2.2.1 rfl).2 (by decide),
   ((C8_two_char_operators ['!', 'a', '\x00'] 0 (by decide)).2.2.2 rfl).2 (by decide)⟩

/-! ## Branch analysis of `tokenAt`

The branch conditions of `tokenAt` are mutually exclusive, so each branch is
selected by its own positive condition (plus, for the identifier branch,
non-digitness, and for the final error branch, everything).  `tokenAt_elim`
packages the complete case analysis. -/

theorem tokenAt_of_gt {src : List Char} {pos : Nat} (h : charAt src pos = '>') :
    tokenAt src pos = gtToken src pos := by
  unfold tokenAt
  rw [if_neg (fun hc => by rw [h] at hc; exact absurd hc (by decide)),
    if_neg (fun hc => by rw [h] at hc; exact absurd hc (by decide)),
    if_neg (fun hc => by rw [h] at hc; exact absurd hc (by decide)),
    if_neg (fun hc => by rw [h] at hc; exact absurd hc (by decide)),
    if_neg (fun hc => by rw [h] at hc; exact absurd hc (by decide)), if_pos h]

theorem tokenAt_of_lt {src : List Char} {pos : Nat} (h : charAt src pos = '<') :
    tokenAt src pos = ltToken src pos := by
  unfold tokenAt
  rw [if_neg (fun hc => by rw [h] at hc; exact absurd hc (by decide)),
    if_neg (fun hc => by rw [h] at hc; exact absurd hc (by decide)),
    if_neg (fun hc => by rw [h] at hc; exact absurd hc (by decide)),
    if_neg (fun hc => by rw [h] at hc; exact absurd hc (by decide)),
    if_neg (fun hc => by rw [h] at hc; exact absurd hc (by decide)),
    if_neg (fun hc => by rw [h] at hc; exact absurd hc (by decide)), if_pos h]

theorem tokenAt_of_eqc {src : List Char} {pos : Nat} (h : charAt src pos = '=') :
    tokenAt src pos = eqToken src pos := by
  unfold tokenAt
  rw [if_neg (fun hc => by rw [h] at hc; exact absurd hc (by decide)),
    if_neg (fun hc => by rw [h] at hc; exact absurd hc (by decide)),
    if_neg (fun hc => by rw [h] at hc; exact absurd hc (by decide)),
    if_neg (fun hc => by rw [h] at hc; exact absurd hc (by decide)),
    if_neg (fun hc => by rw [h] at hc; exact absurd hc (by decide)),
    if_neg (fun hc => by rw [h] at hc; exact absurd hc (by decide)),
    if_neg (fun hc => by rw [h] at hc; exact absurd hc (by decide)), if_pos h]

theorem tokenAt_of_bang {src : List Char} {pos : Nat} (h : charAt src pos = '!') :
    tokenAt src pos = bangToken src pos := by
  unfold tokenAt
  rw [if_neg (fun hc => by rw [h] at hc; exact absurd hc (by decide)),
    if_neg (fun hc => by rw [h] at hc; exact absurd hc (by decide)),
    if_neg (fun hc => by rw [h] at hc; exact absurd hc (by decide)),
    if_neg (fun hc => by rw [h] at hc; exact absurd hc (by decide)),
    if_neg (fun hc => by rw [h] at hc; exact absurd hc (by decide)),
    if_neg (fun hc => by rw [h] at hc; exact absurd hc (by decide)),
    if_neg (fun hc => by rw [h] at hc; exact absurd hc (by decide)),
    if_neg (fun hc => by rw [h] at hc; exact absurd hc (by decide)), if_pos h]

theorem tokenAt_of_digit {src : List Char} {pos : Nat}
    (h : (charAt src pos).isDigit = true) :
    tokenAt src pos = numberToken src pos := by
  unfold tokenAt
  rw [if_neg (fun hc => by rw [hc] at h; exact absurd h (by decide)),
    if_neg (fun hc => by rw [hc] at h; exact absurd h (by decide)),
    if_neg (fun hc => by rw [hc] at h; exact absurd h (by decide)),
    if_neg (fun hc => by rw [hc] at h; exact absurd h (by decide)),
    if_neg (fun hc => by rw [hc] at h; exact absurd h (by decide)),
    if_neg (fun hc => by rw [hc] at h; exact absurd h (by decide)),
    if_neg (fun hc => by rw [hc] at h; exact absurd h (by decide)),
    if_neg (fun hc => by rw [hc] at h; exact absurd h (by decide)),
    if_neg (fun hc => by rw [hc] at h; exact absurd h (by decide)), if_pos h]

theorem tokenAt_of_quote {src : List Char} {pos : Nat} (h : charAt src pos = '"') :
    tokenAt src pos = stringToken src pos := by
  unfold tokenAt
  rw [if_neg (fun hc => by rw [h] at hc; exact absurd hc (by decide)),
    if_neg (fun hc => by rw [h] at hc; exact absurd hc (by decide)),
    if_neg (fun hc => by rw [h] at hc; exact absurd hc (by decide)),
    if_neg (fun hc => by rw [h] at hc; exact absurd hc (by decide)),
    if_neg (fun hc => by rw [h] at hc; exact absurd hc (by decide)),
    if_neg (fun hc => by rw [h] at hc; exact absurd hc (by decide)),
    if_neg (fun hc => by rw [h] at hc; exact absurd hc (by decide)),
    if_neg (fun hc => by rw [h] at hc; exact absurd hc (by decide)),
    if_neg (fun hc => by rw [h] at hc; exact absurd hc (by decide)),
    if_neg (by rw [h]; decide), if_pos h]

theorem tokenAt_of_alpha {src : List Char} {pos : Nat}
    (h : (charAt src pos).isAlpha = true) (hd : (charAt src pos).isDigit = false) :
    tokenAt src pos = identToken src pos := by
  unfold tokenAt
  rw [if_neg (fun hc => by rw [hc] at h; exact absurd h (by decide)),
    if_neg (fun hc => by rw [hc] at h; exact absurd h (by decide)),
    if_neg (fun hc => by rw [hc] at h; exact absurd h (by decide)),
    if_neg (fun hc => by rw [hc] at h; exact absurd h (by decide)),
    if_neg (fun hc => by rw [hc] at h; exact absurd h (by decide)),
    if_neg (fun hc => by rw [hc] at h; exact absurd h (by decide)),
    if_neg (fun hc => by rw [hc] at h; exact absurd h (by decide)),
    if_neg (fun hc => by rw [hc] at h; exact absurd h (by decide)),
    if_neg (fun hc => by rw [hc] at h; exact absurd h (by decide)),
    if_neg (fun hc => by rw [hd] at hc; exact absurd hc (by decide)),
    if_neg (fun hc => by rw [hc] at h; exact absurd h (by decide)), if_pos h]

theorem tokenAt_of_nul {src : List Char} {pos : Nat} (h : charAt src pos = '\x00') :
    tokenAt src pos = .ok Token.eofTok pos := by
  unfold tokenAt
  rw [if_neg (fun hc => by rw [h] at hc; exact absurd hc (by decide)),
    if_neg (fun hc => by rw [h] at hc; exact absurd hc (by decide)),
    if_neg (fun hc => by rw [h] at hc; exact absurd hc (by decide)),
    if_neg (fun hc => by rw [h] at hc; exact absurd hc (by decide)),
    if_neg (fun hc => by rw [h] at hc; exact absurd hc (by decide)),
    if_neg (fun hc => by rw [h] at hc; exact absurd hc (by decide)),
    if_neg (fun hc => by rw [h] at hc; exact absurd hc (by decide)),
    if_neg (fun hc => by rw [h] at hc; exact absurd hc (by decide)),
    if_neg (fun hc => by rw [h] at hc; exact absurd hc (by decide)),
    if_neg (by rw [h]; decide),
    if_neg (fun hc => by rw [h] at hc; exact absurd hc (by decide)),
    if_neg (by rw [h]; decide), if_pos h]

/-- Complete case analysis on `tokenAt`: the branch conditions are mutually
exclusive, so each case receives only its distinguishing condition. -/
theorem tokenAt_elim {motive : TokStep → Prop} (src : List Char) (pos : Nat)
    (hplus : charAt src pos = '+' →
      motive (.ok ⟨.Plus, ("+"), none⟩ (nextPos src pos)))
    (hminus : charAt src pos = '-' →
      motive (.ok ⟨.Minus, ("-"), none⟩ (nextPos src pos)))
    (hstar : charAt src pos = '*' →
      motive (.ok ⟨.Asterisk, ("*"), none⟩ (nextPos src pos)))
    (hslash : charAt src pos = '/' →
      motive (.ok ⟨.Slash, ("/"), none⟩ (nextPos src pos)))
    (hpct : charAt src pos = '%' →
      motive (.ok ⟨.Percent, ("%"), none⟩ (nextPos src pos)))
    (hgt : charAt src pos = '>' → motive (gtToken src pos))
    (hlt : charAt src pos = '<' → motive (ltToken src pos))
    (heq : charAt src pos = '=' → motive (eqToken src pos))
    (hbang : charAt src pos = '!' → motive (bangToken src pos))
    (hdig : (charAt src pos).isDigit = true → motive (numberToken src pos))
    (hquote : charAt src pos = '"' → motive (stringToken src pos))
    (halpha : (charAt src pos).isAlpha = true → (charAt src pos).isDigit = false →
      motive (identToken src pos))
    (hnul : charAt src pos = '\x00' → motive (.ok Token.eofTok pos))
    (hother : (charAt src pos).isDigit = false → (charAt src pos).isAlpha = false →
      charAt src pos ≠ '\x00' →
      motive (.err (.invalidString (String.mk [charAt src pos]) pos))) :
    motive (tokenAt src pos) := by
  by_cases h1 : charAt src pos = '+'
  · unfold tokenAt; rw [if_pos h1]; exact hplus h1
  by_cases h2 : charAt src pos = '-'
  · unfold tokenAt; rw [if_neg h1, if_pos h2]; exact hminus h2
  by_cases h3 : charAt src pos = '*'
  · unfold tokenAt; rw [if_neg h1, if_neg h2, if_pos h3]; exact hstar h3
  by_cases h4 : charAt src pos = '/'
  · unfold tokenAt; rw [if_neg h1, if_neg h2, if_neg h3, if_pos h4]; exact hslash h4
  by_cases h5 : charAt src pos = '%'
  · unfold tokenAt; rw [if_neg h1, if_neg h2, if_neg h3, if_neg h4, if_pos h5]
    exact hpct h5
  by_cases h6 : charAt src pos = '>'
  · rw [tokenAt_of_gt h6]; exact hgt h6
  by_cases h7 : charAt src pos = '<'
  · rw [tokenAt_of_lt h7]; exact hlt h7
  by_cases h8 : charAt src pos = '='
  · rw [tokenAt_of_eqc h8]; exact heq h8
  by_cases h9 : charAt src pos = '!'
  · rw [tokenAt_of_bang h9]; exact hbang h9
  by_cases h10 : (charAt src pos).isDigit = true
  · rw [tokenAt_of_digit h10]; exact hdig h10
  by_cases h11 : charAt src pos = '"'
  · rw [tokenAt_of_quote h11]; exact hquote h11
  by_cases h12 : (charAt src pos).isAlpha = true
  · rw [tokenAt_of_alpha h12 (Bool.not_eq_true _ ▸ h10)]
    exact halpha h12 (Bool.not_eq_true _ ▸ h10)
  by_cases h13 : charAt src pos = '\x00'
  · rw [tokenAt_of_nul h13]; exact hnul h13
  · unfold tokenAt
    rw [if_neg h1, if_neg h2, if_neg h3, if_neg h4, if_neg h5, if_neg h6, if_neg h7,
      if_neg h8, if_neg h9, if_neg h10, if_neg h11, if_neg h12, if_neg h13]
    exact hother (Bool.not_eq_true _ ▸ h10) (Bool.not_eq_true _ ▸ h12) h13

/-! ## C7: the terminal EOF token -/

theorem keywordLookup_ne_eof (s : String) : keywordLookup s ≠ .EOF := by
  unfold keywordLookup KEYWORDS
  simp only [List.lookup]
  repeat' split
  all_goals decide

/-- A token of type `EOF` comes only from the `'\0'` branch: it is exactly
`Token::eof()` and the cursor afterwards still reads NUL. -/
theorem tokenAt_eof {src : List Char} {pos : Nat} {t : Token} {p' : Nat}
    (h : tokenAt src pos = .ok t p') (ht : t.token_type = .EOF) :
    t = Token.eofTok ∧ charAt src p' = '\x00' := by
  revert h
  refine tokenAt_elim (motive := fun r => r = .ok t p' →
      t = Token.eofTok ∧ charAt src p' = '\x00') src pos
    ?_ ?_ ?_ ?_ ?_ ?_ ?_ ?_ ?_ ?_ ?_ ?_ ?_ ?_
  · intro _ h
    injection h with h1 h2
    rw [← h1] at ht
    exact absurd ht (by decide)
  · intro _ h
    injection h with h1 h2
    rw [← h1] at ht
    exact absurd ht (by decide)
  · intro _ h
    injection h with h1 h2
    rw [← h1] at ht
    exact absurd ht (by decide)
  · intro _ h
    injection h with h1 h2
    rw [← h1] at ht
    exact absurd ht (by decide)
  · intro _ h
    injection h with h1 h2
    rw [← h1] at ht
    exact absurd ht (by decide)
  · intro _ h
    unfold gtToken at h
    split_ifs at h <;> first
      | (injection h with h1 h2; rw [← h1] at ht; simp [Token.eofTok] at ht)
      | cases h
  · intro _ h
    unfold ltToken at h
    split_ifs at h <;> first
      | (injection h with h1 h2; rw [← h1] at ht; simp [Token.eofTok] at ht)
      | cases h
  · intro _ h
    unfold eqToken at h
    split_ifs at h <;> first
      | (injection h with h1 h2; rw [← h1] at ht; simp [Token.eofTok] at ht)
      | cases h
  · intro _ h
    unfold bangToken at h
    split_ifs at h <;> first
      | (injection h with h1 h2; rw [← h1] at ht; simp [Token.eofTok] at ht)
      | cases h
  · intro _ h
    simp only [numberToken] at h
    split_ifs at h <;> first
      | (injection h with h1 h2; rw [← h1] at ht; simp [Token.eofTok] at ht)
      | cases h
  · intro _ h
    simp only [stringToken] at h
    split_ifs at h <;> first
      | (injection h with h1 h2; rw [← h1] at ht; simp [Token.eofTok] at ht)
      | cases h
  · intro _ _ h
    simp only [identToken] at h
    injection h with h1 h2
    rw [← h1] at ht
    exact absurd ht (keywordLookup_ne_eof _)
  · intro hc h
    injection h with h1 h2
    exact ⟨h1.symm, h2 ▸ hc⟩
  · intro _ _ _ h
    cases h

theorem nextTokenPos_eof {src : List Char} {pos : Nat} {t : Token} {p' : Nat}
    (h : nextTokenPos src pos = .ok t p') (ht : t.token_type = .EOF) :
    t = Token.eofTok ∧ charAt src p' = '\x00' :=
  tokenAt_eof h ht

/-- Along a successful tokenize run, an `EOF`-typed token can only be the
last token, and any `EOF`-typed token is exactly `Token::eof()`. -/
theorem tokenizeLoopGo_eof_props (src : List Char) :
    ∀ (fuel pos : Nat) (toks : List Token), tokenizeLoopGo src fuel pos = .ok toks →
      (∀ t ∈ toks.dropLast, t.token_type ≠ .EOF) ∧
      (∀ t ∈ toks, t.token_type = .EOF → t = Token.eofTok) := by
  intro fuel
  induction fuel with
  | zero => intro pos toks h; cases h
  | succ n ih =>
    intro pos toks h
    simp only [tokenizeLoopGo] at h
    by_cases h0 : charAt src pos = '\x00'
    · rw [if_pos h0] at h
      injection h with h1
      subst h1
      exact ⟨fun t htm => absurd htm (List.not_mem_nil t),
        fun t htm => absurd htm (List.not_mem_nil t)⟩
    · rw [if_neg h0] at h
      cases hn : nextTokenPos src pos with
      | ok tk p' =>
        rw [hn] at h
        dsimp only at h
        cases hrec : tokenizeLoopGo src n p' with
        | ok ts =>
          rw [hrec] at h
          dsimp only at h
          injection h with h1
          subst h1
          obtain ⟨ihA, ihB⟩ := ih p' ts hrec
          have htk : tk.token_type = .EOF → ts = [] := by
            intro hteof
            obtain ⟨-, hchr⟩ := nextTokenPos_eof hn hteof
            cases n with
            | zero => cases hrec
            | succ m =>
              simp only [tokenizeLoopGo, if_pos hchr] at hrec
              injection hrec with h2
              exact h2.symm
          constructor
          · intro t htm
            cases ts with
            | nil => simp at htm
            | cons t2 ts2 =>
              simp only [List.dropLast_cons₂, List.mem_cons] at htm
              rcases htm with rfl | htm
              · intro hteof
                have := htk hteof
                cases this
              · exact ihA t (by simpa [List.dropLast] using htm)
          · intro t htm hteof
            rcases List.mem_cons.1 htm with rfl | htm
            · exact (nextTokenPos_eof hn hteof).1
            · exact ihB t htm hteof
        | err e => rw [hrec] at h; dsimp only at h; cases h
        | panicked => rw [hrec] at h; dsimp only at h; cases h
        | fuelOut => rw [hrec] at h; dsimp only at h; cases h
      | err e => rw [hn] at h; dsimp only at h; cases h
      | panicked => rw [hn] at h; dsimp only at h; cases h

/-- C7 (corrected, amended form): a successful `tokenize` never yields an
`EOF` token before the last position — but the token list need not end with
an `EOF` token at all (it does only when trailing whitespace/comments are
consumed).  The exactly-one-terminal-EOF property instead holds of the
parser's normalized token vector, because `Parser::new` appends the missing
`EOF`. -/
theorem C7_eof_amended (s : String) (toks : List Token) (h : tokenize s = .ok toks) :
    (∀ t ∈ toks.dropLast, t.token_type ≠ .EOF) ∧
    ((pInit toks).tokens.getLast? = some Token.eofTok ∧
      ∀ t ∈ (pInit toks).tokens.dropLast, t.token_type ≠ .EOF) := by
  have hp := tokenizeLoopGo_eof_props (mkSource s) (mkSource s).length.succ 0 toks h
  refine ⟨hp.1, ?_, ?_⟩
  · by_cases hl : toks.getLast? = some Token.eofTok
    · simp only [pInit, if_pos hl]
      exact hl
    · simp only [pInit, if_neg hl]
      exact List.getLast?_concat _
  · by_cases hl : toks.getLast? = some Token.eofTok
    · simp only [pInit, if_pos hl]
      exact hp.1
    · simp only [pInit, if_neg hl]
      rw [List.dropLast_concat]
      intro t htm hteof
      have hne : toks ≠ [] := by
        rintro rfl
        exact absurd htm (List.not_mem_nil t)
      have htk := hp.2 t htm hteof
      rcases List.mem_append.1 ((List.dropLast_append_getLast hne) ▸ htm) with hin | hin
      · exact absurd hteof (hp.1 t hin)
      · have : t = toks.getLast hne := by simpa using hin
        exact hl (by rw [List.getLast?_eq_getLast _ hne, ← this, htk])

/-- C7 witness: `"1 "` (trailing space) tokenizes to a number followed by
the terminal EOF token. -/
theorem C7_eof_amended_witness :
    (∀ t ∈ ([⟨.Number, ("1"), some (.number 1)⟩, Token.eofTok] : List Token).dropLast,
      t.token_type ≠ .EOF) ∧
    ((pInit [⟨.Number, ("1"), some (.number 1)⟩, Token.eofTok]).tokens.getLast? =
        some Token.eofTok ∧
      ∀ t ∈ (pInit [⟨.Number, ("1"), some (.number 1)⟩, Token.eofTok]).tokens.dropLast,
        t.token_type ≠ .EOF) :=
  C7_eof_amended ("1 ") [⟨.Number, ("1"), some (.number 1)⟩, Token.eofTok] rfl

/-- C7 counterexample: `tokenize "1"` succeeds with a token sequence that
contains no `EOF` token at all — the claim's "ends with exactly one EOF
token" fails. -/
theorem C7_counterexample :
    tokenize ("1") = .ok [⟨.Number, ("1"), some (.number 1)⟩] ∧
    (⟨.Number, ("1"), some (.number 1)⟩ : Token).token_type ≠ .EOF :=
  ⟨rfl, by decide⟩

/-! ## C9: the numeric-literal `unwrap` never fails on ASCII sources -/

theorem scanGo_le (src : List Char) (p : Char → Bool) :
    ∀ (fuel pos : Nat), pos ≤ scanGo src p fuel pos := by
  intro fuel
  induction fuel with
  | zero => intro pos; exact Nat.le_refl pos
  | succ n ih =>
    intro pos
    simp only [scanGo]
    split
    · exact Nat.le_trans (Nat.le_succ pos) (ih (pos + 1))
    · exact Nat.le_refl pos

theorem scanGo_mem (src : List Char) (p : Char → Bool) :
    ∀ (fuel pos j : Nat), pos ≤ j → j < scanGo src p fuel pos →
      p (charAt src j) = true := by
  intro fuel
  induction fuel with
  | zero =>
    intro pos j h1 h2
    simp only [scanGo] at h2
    omega
  | succ n ih =>
    intro pos j h1 h2
    simp only [scanGo] at h2
    split at h2
    case isTrue hc =>
      rcases Nat.eq_or_lt_of_le h1 with rfl | hlt
      · exact hc.1
      · exact ih (pos + 1) j hlt h2
    case isFalse hc => omega

theorem scanGo_stop (src : List Char) (p : Char → Bool) :
    ∀ (fuel pos : Nat), src.length ≤ pos + fuel →
      ¬(p (charAt src (scanGo src p fuel pos)) = true ∧
        scanGo src p fuel pos + 1 < src.length) := by
  intro fuel
  induction fuel with
  | zero =>
    intro pos h
    simp only [scanGo]
    rintro ⟨-, h2⟩
    omega
  | succ n ih =>
    intro pos h
    simp only [scanGo]
    split
    case isTrue hc => exact ih (pos + 1) (by omega)
    case isFalse hc => exact hc

theorem scanGo_lt (src : List Char) (p : Char → Bool) :
    ∀ (fuel pos : Nat), pos < src.length → scanGo src p fuel pos < src.length := by
  intro fuel
  induction fuel with
  | zero => intro pos h; simpa only [scanGo] using h
  | succ n ih =>
    intro pos h
    simp only [scanGo]
    split
    case isTrue hc => exact ih (pos + 1) hc.2
    case isFalse _ => exact h

theorem scanWhilePos_le (src : List Char) (p : Char → Bool) (pos : Nat) :
    pos ≤ scanWhilePos src p pos :=
  scanGo_le src p _ pos

theorem scanWhilePos_mem {src : List Char} {p : Char → Bool} {pos j : Nat}
    (h1 : pos ≤ j) (h2 : j < scanWhilePos src p pos) : p (charAt src j) = true :=
  scanGo_mem src p _ pos j h1 h2

theorem scanWhilePos_not_step (src : List Char) (p : Char → Bool) (pos : Nat) :
    ¬(p (charAt src (scanWhilePos src p pos)) = true ∧
      scanWhilePos src p pos + 1 < src.length) :=
  scanGo_stop src p _ pos (by omega)

theorem scanWhilePos_lt {src : List Char} {p : Char → Bool} {pos : Nat}
    (h : pos < src.length) : scanWhilePos src p pos < src.length :=
  scanGo_lt src p _ pos h

theorem scanWhilePos_gt {src : List Char} {p : Char → Bool} {pos : Nat}
    (hp : p (charAt src pos) = true) (hl : pos + 1 < src.length) :
    pos < scanWhilePos src p pos := by
  rw [scanWhilePos_step, if_pos ⟨hp, hl⟩]
  exact Nat.lt_of_lt_of_le (Nat.lt_succ_self pos) (scanWhilePos_le src p (pos + 1))

theorem charAt_lt_of_ne {src : List Char} {pos : Nat}
    (h : charAt src pos ≠ '\x00') : pos < src.length := by
  by_contra hc
  exact h (by simp [charAt, List.getD_eq_getElem?_getD, List.getElem?_eq_none (by omega : src.length ≤ pos)])

theorem charAt_mem {src : List Char} {pos : Nat} (h : pos < src.length) :
    charAt src pos ∈ src := by
  have : charAt src pos = src[pos] := by
    simp [charAt, List.getD_eq_getElem?_getD, List.getElem?_eq_getElem h]
  rw [this]
  exact List.getElem_mem h

theorem charAt_last {src : List Char} (h : src.getLast? = some '\x00') :
    charAt src (src.length - 1) = '\x00' := by
  rw [List.getLast?_eq_getElem?] at h
  simp [charAt, List.getD_eq_getElem?_getD, h]

theorem mkSource_getLast (s : String) : (mkSource s).getLast? = some '\x00' := by
  unfold mkSource
  split
  case isTrue h => exact h
  case isFalse _ => exact List.getLast?_concat _
/-! slice and acceptance lemmas -/

theorem sliceChars_eq_range (src : List Char) (a b : Nat) :
    sliceChars src a b = (List.range' a (b - a)).map (charAt src) := by
  rw [sliceChars, List.range'_eq_map_range, List.map_map]
  rfl

theorem sliceChars_append (src : List Char) {a b c : Nat} (h1 : a ≤ b) (h2 : b ≤ c) :
    sliceChars src a c = sliceChars src a b ++ sliceChars src b c := by
  rw [sliceChars_eq_range, sliceChars_eq_range, sliceChars_eq_range, ← List.map_append]
  congr 1
  have hsum : c - a = (c - b) + (b - a) := by omega
  have harg : a + (b - a) = b := by omega
  rw [hsum, ← List.range'_append_1, harg]

theorem sliceChars_singleton (src : List Char) (b : Nat) :
    sliceChars src b (b + 1) = [charAt src b] := by
  simp only [sliceChars, Nat.add_sub_cancel_left, List.range_succ, List.range_zero,
    List.nil_append, List.map_cons, List.map_nil, Nat.add_zero]

theorem sliceChars_all {src : List Char} {p : Char → Bool} {a b : Nat}
    (h : ∀ j, a ≤ j → j < b → p (charAt src j) = true) :
    ∀ c ∈ sliceChars src a b, p c = true := by
  intro c hc
  simp only [sliceChars, List.mem_map, List.mem_range] at hc
  obtain ⟨i, hi, rfl⟩ := hc
  exact h (a + i) (Nat.le_add_right a i) (by omega)

theorem sliceChars_ne_nil {src : List Char} {a b : Nat} (h : a < b) :
    sliceChars src a b ≠ [] := by
  simp only [sliceChars, ne_eq, List.map_eq_nil_iff, List.range_eq_nil]
  omega

theorem spanDigits_of_all {D r : List Char} (hD : ∀ c ∈ D, c.isDigit = true)
    (hr : ∀ c, r.head? = some c → c.isDigit = false) :
    spanDigits (D ++ r) = (D, r) := by
  induction D with
  | nil =>
    simp only [List.nil_append]
    cases r with
    | nil => rfl
    | cons c r2 =>
      have hc := hr c rfl
      simp [spanDigits, hc]
  | cons d D2 ih =>
    have hd : d.isDigit = true := hD d (List.mem_cons_self d D2)
    rw [List.cons_append]
    simp only [spanDigits, hd, if_true]
    rw [ih (fun c hc => hD c (List.mem_cons_of_mem d hc))]

theorem isDigit_not_upper {c : Char} (h : c.isDigit = true) : ¬('A' ≤ c ∧ c ≤ 'Z') := by
  rintro ⟨h1, h2⟩
  simp [Char.isDigit] at h
  simp [Char.le_def] at h1 h2
  have h3 : (65 : UInt32) ≤ 57 := UInt32.le_trans h1 h.2
  exact absurd h3 (by decide)

theorem asciiLower_digit {c : Char} (h : c.isDigit = true) : asciiLower c = c :=
  if_neg (isDigit_not_upper h)

theorem isDigit_ne_sign {c : Char} (h : c.isDigit = true) : ¬(c = '+' ∨ c = '-') := by
  rintro (rfl | rfl) <;> simp at h

theorem stripSign_of_digit {c : Char} (h : c.isDigit = true) (r : List Char) :
    stripSign (c :: r) = c :: r := by
  simp only [stripSign, if_neg (isDigit_ne_sign h)]

theorem map_asciiLower_digit_head {d : Char} (hd : d.isDigit = true) (t : List Char)
    {c0 : Char} (hc0 : c0.isDigit = false) (w : List Char) :
    (d :: t).map asciiLower ≠ c0 :: w := by
  intro h
  rw [List.map_cons, asciiLower_digit hd] at h
  injection h with h1 _
  rw [h1, hc0] at hd
  exact absurd hd (by decide)

theorem not_inf_forms {d : Char} (hd : d.isDigit = true) (t : List Char) :
    ((List.map asciiLower (d :: t) = ['i', 'n', 'f'] ∨
      List.map asciiLower (d :: t) = ['i', 'n', 'f', 'i', 'n', 'i', 't', 'y']) ∨
      List.map asciiLower (d :: t) = ['n', 'a', 'n']) → False := by
  rintro ((h | h) | h)
  · exact map_asciiLower_digit_head hd t (by decide) _ h
  · exact map_asciiLower_digit_head hd t (by decide) _ h
  · exact map_asciiLower_digit_head hd t (by decide) _ h

theorem accepts_digits {D : List Char} (hne : D ≠ [])
    (hD : ∀ c ∈ D, c.isDigit = true) : rustParseF32Accepts D = true := by
  obtain ⟨d, D2, rfl⟩ := List.exists_cons_of_ne_nil hne
  have hd := hD d (List.mem_cons_self d D2)
  simp only [rustParseF32Accepts, stripSign_of_digit hd]
  rw [if_neg]
  · have hspan : spanDigits ((d :: D2) ++ []) = (d :: D2, []) :=
      spanDigits_of_all hD (fun c hc => by simp at hc)
    rw [List.append_nil] at hspan
    simp only [mantissaAccepts, hspan]
    simp
  · intro hc
    simp only [Bool.or_eq_true, decide_eq_true_eq] at hc
    exact not_inf_forms hd D2 hc

theorem accepts_decimal {D1 D2 : List Char} (h1 : D1 ≠ [])
    (hD1 : ∀ c ∈ D1, c.isDigit = true) (hD2 : ∀ c ∈ D2, c.isDigit = true) :
    rustParseF32Accepts (D1 ++ '.' :: D2) = true := by
  obtain ⟨d, D1t, rfl⟩ := List.exists_cons_of_ne_nil h1
  have hd := hD1 d (List.mem_cons_self d D1t)
  rw [List.cons_append]
  simp only [rustParseF32Accepts, stripSign_of_digit hd]
  rw [← List.cons_append]
  rw [if_neg]
  · have hspan1 : spanDigits ((d :: D1t) ++ '.' :: D2) = (d :: D1t, '.' :: D2) :=
      spanDigits_of_all hD1 (fun c hc => by injection hc with h0; rw [← h0]; decide)
    have hspan2 : spanDigits (D2 ++ []) = (D2, []) :=
      spanDigits_of_all hD2 (fun c hc => by simp at hc)
    rw [List.append_nil] at hspan2
    simp only [mantissaAccepts, hspan1, hspan2]
    simp
  · intro hc
    rw [List.cons_append] at hc
    simp only [Bool.or_eq_true, decide_eq_true_eq] at hc
    rw [← List.cons_append] at hc
    have : List.map asciiLower ((d :: D1t) ++ '.' :: D2) =
        List.map asciiLower (d :: (D1t ++ '.' :: D2)) := by rw [List.cons_append]
    rw [this] at hc
    exact not_inf_forms hd (D1t ++ '.' :: D2) hc

theorem charIsNumeric_ascii {c : Char} (h : c.toNat < 128) :
    charIsNumeric c = c.isDigit := by
  rw [charIsNumeric, if_pos]
  exact h

theorem numberToken_no_panic {src : List Char} {pos : Nat}
    (hlast : charAt src (src.length - 1) = '\x00')
    (hascii : ∀ c ∈ src, c.toNat < 128)
    (hdig : (charAt src pos).isDigit = true) :
    numberToken src pos ≠ .panicked := by
  have hnz : charAt src pos ≠ '\x00' := fun hc => by
    rw [hc] at hdig; exact absurd hdig (by decide)
  have hpos : pos < src.length := charAt_lt_of_ne hnz
  have hpos1 : pos + 1 < src.length := by
    rcases Nat.lt_or_ge (pos + 1) src.length with hx | hx
    · exact hx
    · have he : pos = src.length - 1 := by omega
      rw [he] at hnz
      exact absurd hlast hnz
  have hnum_digit : ∀ j, j < src.length →
      charIsNumeric (charAt src j) = (charAt src j).isDigit :=
    fun j hj => charIsNumeric_ascii (hascii _ (charAt_mem hj))
  set b := scanWhilePos src charIsNumeric pos with hb
  have hposb : pos < b :=
    scanWhilePos_gt (by rw [hnum_digit pos hpos]; exact hdig) hpos1
  have hblt : b < src.length := scanWhilePos_lt hpos
  have hbd : ∀ j, pos ≤ j → j < b → (charAt src j).isDigit = true := fun j h1 h2 => by
    rw [← hnum_digit j (lt_trans h2 hblt)]
    exact scanWhilePos_mem h1 h2
  intro hcontra
  simp only [numberToken] at hcontra
  by_cases hdot : charAt src b = '.'
  · have hb1 : b + 1 < src.length := by
      rcases Nat.lt_or_ge (b + 1) src.length with hx | hx
      · exact hx
      · have he : b = src.length - 1 := by omega
        rw [he, hlast] at hdot
        exact absurd hdot (by decide)
    have hnext : nextPos src b = b + 1 := nextPos_lt hb1
    rw [if_pos hdot, hnext] at hcontra
    set p2 := scanWhilePos src charIsNumeric (b + 1) with hp2
    have hp2ge : b + 1 ≤ p2 := scanWhilePos_le src charIsNumeric (b + 1)
    have hp2lt : p2 < src.length := scanWhilePos_lt (by omega)
    have hd2 : ∀ j, b + 1 ≤ j → j < p2 → (charAt src j).isDigit = true :=
      fun j h1 h2 => by
        rw [← hnum_digit j (lt_trans h2 hp2lt)]
        exact scanWhilePos_mem h1 h2
    have htext : sliceChars src pos p2 =
        sliceChars src pos b ++ '.' :: sliceChars src (b + 1) p2 := by
      rw [sliceChars_append src (le_of_lt hposb) (by omega : b ≤ p2),
        sliceChars_append src (by omega : b ≤ b + 1) hp2ge,
        sliceChars_singleton, hdot]
      simp
    have hacc : rustParseF32Accepts (sliceChars src pos p2) = true := by
      rw [htext]
      exact accepts_decimal (sliceChars_ne_nil hposb)
        (fun c hc => sliceChars_all hbd c hc)
        (fun c hc => sliceChars_all hd2 c hc)
    rw [if_pos hacc] at hcontra
    cases hcontra
  · rw [if_neg hdot] at hcontra
    have hacc : rustParseF32Accepts (sliceChars src pos b) = true :=
      accepts_digits (sliceChars_ne_nil hposb) (fun c hc => sliceChars_all hbd c hc)
    rw [if_pos hacc] at hcontra
    cases hcontra

/-- `next_token` never panics when the source is NUL-terminated and all
ASCII: only the numeric-literal branch contains the `unwrap`, and there the
scanned fragment always parses. -/
theorem tokenAt_no_panic {src : List Char} {pos : Nat}
    (hlast : charAt src (src.length - 1) = '\x00')
    (hascii : ∀ c ∈ src, c.toNat < 128) :
    tokenAt src pos ≠ .panicked := by
  refine tokenAt_elim (motive := fun r => r ≠ TokStep.panicked) src pos
    ?_ ?_ ?_ ?_ ?_ ?_ ?_ ?_ ?_ ?_ ?_ ?_ ?_ ?_
  · intro _ h; cases h
  · intro _ h; cases h
  · intro _ h; cases h
  · intro _ h; cases h
  · intro _ h; cases h
  · intro _
    unfold gtToken
    split_ifs <;> (intro h; cases h)
  · intro _
    unfold ltToken
    split_ifs <;> (intro h; cases h)
  · intro _
    unfold eqToken
    split_ifs <;> (intro h; cases h)
  · intro _
    unfold bangToken
    split_ifs <;> (intro h; cases h)
  · intro hd
    exact numberToken_no_panic hlast hascii hd
  · intro _
    simp only [stringToken]
    split_ifs <;> (intro h; cases h)
  · intro _ _
    simp only [identToken]
    intro h; cases h
  · intro _ h; cases h
  · intro _ _ _ h; cases h

theorem tokenizeLoopGo_no_panic {src : List Char}
    (hlast : charAt src (src.length - 1) = '\x00')
    (hascii : ∀ c ∈ src, c.toNat < 128) :
    ∀ (fuel pos : Nat), tokenizeLoopGo src fuel pos ≠ .panicked := by
  intro fuel
  induction fuel with
  | zero => intro pos h; cases h
  | succ n ih =>
    intro pos h
    simp only [tokenizeLoopGo] at h
    by_cases h0 : charAt src pos = '\x00'
    · rw [if_pos h0] at h; cases h
    · rw [if_neg h0] at h
      cases hn : nextTokenPos src pos with
      | ok tk p' =>
        rw [hn] at h
        dsimp only at h
        cases hrec : tokenizeLoopGo src n p' with
        | ok ts => rw [hrec] at h; dsimp only at h; cases h
        | err e => rw [hrec] at h; dsimp only at h; cases h
        | panicked => exact ih p' hrec
        | fuelOut => rw [hrec] at h; dsimp only at h; cases h
      | err e => rw [hn] at h; dsimp only at h; cases h
      | panicked => exact absurd hn (tokenAt_no_panic hlast hascii)

/-- C9 (corrected to ASCII sources): on a source whose characters are all
ASCII, the numeric-literal branch's `unwrap` never fires a panic — every
scanned fragment parses as an `f32`.  (On non-ASCII sources the claim is
false: see the counterexample.) -/
theorem C9_ascii_no_panic (s : String) (h : ∀ c ∈ s.data, c.toNat < 128) :
    tokenize s ≠ .panicked := by
  have hlast : charAt (mkSource s) ((mkSource s).length - 1) = '\x00' :=
    charAt_last (mkSource_getLast s)
  have hascii : ∀ c ∈ mkSource s, c.toNat < 128 := by
    intro c hc
    unfold mkSource at hc
    split at hc
    · exact h c hc
    · rcases List.mem_append.1 hc with hc2 | hc2
      · exact h c hc2
      · rw [List.mem_singleton] at hc2
        subst hc2
        decide
  show tokenizeLoopGo (mkSource s) ((mkSource s).length + 1) 0 ≠ .panicked
  exact tokenizeLoopGo_no_panic hlast hascii _ 0

/-- C9 witness: an ASCII source with both integer and decimal literals. -/
theorem C9_ascii_no_panic_witness :
    (∀ c ∈ ("1 2.5 +").data, c.toNat < 128) ∧ tokenize ("1 2.5 +") ≠ .panicked :=
  ⟨by decide, C9_ascii_no_panic ("1 2.5 +") (by decide)⟩

/-- C9 counterexample: `'½'` (U+00BD) satisfies Rust's `char::is_numeric`,
so the scan extends the fragment to `"1½"`, which `parse::<f32>` rejects —
the `unwrap` panics. -/
theorem C9_panic_counterexample : tokenize ("1½") = .panicked := rfl

/-! ## C10: the first NUL acts as end-of-input

Setup: two sources that agree on all positions up to `N`, where both hold a
NUL; `S1` may continue past `N` while `S2` ends right there.  Every lexer
operation started at a position `≤ N` behaves identically on both. -/

theorem charAt_append_lt {t X : List Char} {j : Nat} (h : j < t.length) :
    charAt (t ++ X) j = charAt t j :=
  List.getD_append t X '\x00' j h

theorem charAt_append_nul (t R : List Char) :
    charAt (t ++ '\x00' :: R) t.length = '\x00' := by
  rw [charAt, List.getD_append_right t _ '\x00' t.length (Nat.le_refl _), Nat.sub_self]
  rfl

theorem scan_bisim {S1 S2 : List Char} {N : Nat}
    (hagree : ∀ j, j ≤ N → charAt S1 j = charAt S2 j)
    (hnul : charAt S1 N = '\x00')
    (hlen1 : N < S1.length) (hlen2 : S2.length = N + 1)
    {p : Char → Bool} (hp0 : p '\x00' = false) :
    ∀ (k pos : Nat), pos ≤ N → N - pos ≤ k →
      scanWhilePos S1 p pos = scanWhilePos S2 p pos ∧ scanWhilePos S1 p pos ≤ N := by
  intro k
  induction k with
  | zero =>
    intro pos hpos hk
    have hpN : pos = N := by omega
    subst hpN
    have h1 : p (charAt S1 pos) = false := by rw [hnul]; exact hp0
    have h2 : p (charAt S2 pos) = false := by rw [← hagree pos (Nat.le_refl _)]; exact h1
    rw [scanWhilePos_stop h1, scanWhilePos_stop h2]
    exact ⟨rfl, Nat.le_refl _⟩
  | succ n ih =>
    intro pos hpos hk
    by_cases hp : p (charAt S1 pos) = true
    · have hne : charAt S1 pos ≠ '\x00' := fun hc => by
        rw [hc, hp0] at hp; exact absurd hp (by decide)
      have hltN : pos < N := lt_of_le_of_ne hpos (fun he => hne (he ▸ hnul))
      have hp2 : p (charAt S2 pos) = true := by rw [← hagree pos hpos]; exact hp
      have hL1 : pos + 1 < S1.length := by omega
      have hL2 : pos + 1 < S2.length := by omega
      rw [scanWhilePos_step S1, if_pos ⟨hp, hL1⟩, scanWhilePos_step S2, if_pos ⟨hp2, hL2⟩]
      exact ih (pos + 1) (by omega) (by omega)
    · have hp2 : ¬(p (charAt S2 pos) = true) := by rw [← hagree pos hpos]; exact hp
      rw [scanWhilePos_stop (Bool.eq_false_iff.2 hp), scanWhilePos_stop (Bool.eq_false_iff.2 hp2)]
      exact ⟨rfl, hpos⟩

theorem sliceChars_congr {S1 S2 : List Char} {a b : Nat}
    (h : ∀ j, a ≤ j → j < b → charAt S1 j = charAt S2 j) :
    sliceChars S1 a b = sliceChars S2 a b := by
  simp only [sliceChars]
  apply List.map_congr_left
  intro i hi
  rw [List.mem_range] at hi
  exact h (a + i) (Nat.le_add_right _ _) (by omega)

theorem skipCommentsPos_bisim {S1 S2 : List Char} {N : Nat}
    (hagree : ∀ j, j ≤ N → charAt S1 j = charAt S2 j)
    (hnul : charAt S1 N = '\x00')
    (hlen1 : N < S1.length) (hlen2 : S2.length = N + 1)
    {pos : Nat} (hpos : pos ≤ N) :
    skipCommentsPos S1 pos = skipCommentsPos S2 pos ∧
    pos ≤ (skipCommentsPos S1 pos).1 ∧ (skipCommentsPos S1 pos).1 ≤ N := by
  by_cases hc : charAt S1 pos = '/' ∧ charAt S1 (pos + 1) = '/'
  · have hltN : pos < N := lt_of_le_of_ne hpos (fun he => by
      rw [he, hnul] at hc; exact absurd hc.1 (by decide))
    have hc2 : charAt S2 pos = '/' ∧ charAt S2 (pos + 1) = '/' :=
      ⟨by rw [← hagree pos hpos]; exact hc.1,
       by rw [← hagree (pos + 1) (by omega)]; exact hc.2⟩
    have hn1 : nextPos S1 pos = pos + 1 := nextPos_lt (by omega)
    have hn2 : nextPos S2 pos = pos + 1 := nextPos_lt (by omega)
    have hsc := scan_bisim hagree hnul hlen1 hlen2
      (p := fun c => !(c == '\n') && !(c == '\x00')) (by decide) (N - (pos + 1)) (pos + 1)
      (by omega) (Nat.le_refl _)
    unfold skipCommentsPos
    rw [if_pos hc, if_pos hc2, hn1, hn2]
    refine ⟨by rw [hsc.1], ?_, hsc.2⟩
    exact Nat.le_trans (Nat.le_succ pos) (scanWhilePos_le S1 _ (pos + 1))
  · have hc2 : ¬(charAt S2 pos = '/' ∧ charAt S2 (pos + 1) = '/') := by
      intro hx
      by_cases hpN : pos < N
      · exact hc ⟨by rw [hagree pos hpos]; exact hx.1,
          by rw [hagree (pos + 1) (by omega)]; exact hx.2⟩
      · have hpe : pos = N := by omega
        rw [hpe, ← hagree N (Nat.le_refl _), hnul] at hx
        exact absurd hx.1 (by decide)
    unfold skipCommentsPos
    rw [if_neg hc, if_neg hc2]
    exact ⟨rfl, Nat.le_refl _, hpos⟩

theorem skipWhitespacePos_bisim {S1 S2 : List Char} {N : Nat}
    (hagree : ∀ j, j ≤ N → charAt S1 j = charAt S2 j)
    (hnul : charAt S1 N = '\x00')
    (hlen1 : N < S1.length) (hlen2 : S2.length = N + 1)
    {pos : Nat} (hpos : pos ≤ N) :
    skipWhitespacePos S1 pos = skipWhitespacePos S2 pos ∧
    pos ≤ (skipWhitespacePos S1 pos).1 ∧ (skipWhitespacePos S1 pos).1 ≤ N := by
  have hsc := scan_bisim hagree hnul hlen1 hlen2
    (p := rustIsWhitespace) (by decide) (N - pos) pos hpos (Nat.le_refl _)
  unfold skipWhitespacePos
  refine ⟨?_, scanWhilePos_le S1 _ pos, hsc.2⟩
  rw [hsc.1, hagree pos hpos]

theorem skipLoopGo_bisim {S1 S2 : List Char} {N : Nat}
    (hagree : ∀ j, j ≤ N → charAt S1 j = charAt S2 j)
    (hnul : charAt S1 N = '\x00')
    (hlen1 : N < S1.length) (hlen2 : S2.length = N + 1) :
    ∀ (k pos fuel1 fuel2 : Nat), pos ≤ N → N - pos < fuel1 → N - pos < fuel2 →
      N - pos ≤ k →
      skipLoopGo S1 fuel1 pos = skipLoopGo S2 fuel2 pos ∧
      pos ≤ skipLoopGo S1 fuel1 pos ∧ skipLoopGo S1 fuel1 pos ≤ N := by
  intro k
  induction k with
  | zero =>
    intro pos fuel1 fuel2 hpos hf1 hf2 hk
    have hpN : pos = N := by omega
    have hnulp : charAt S1 pos = '\x00' := hpN ▸ hnul
    obtain ⟨f1, rfl⟩ : ∃ f, fuel1 = f + 1 := ⟨fuel1 - 1, by omega⟩
    obtain ⟨f2, rfl⟩ : ∃ f, fuel2 = f + 1 := ⟨fuel2 - 1, by omega⟩
    have hcb := skipCommentsPos_bisim hagree hnul hlen1 hlen2 hpos
    have hcflag : (skipCommentsPos S1 pos).2 = false := by
      unfold skipCommentsPos
      rw [if_neg (fun hx => by rw [hnulp] at hx; exact absurd hx.1 (by decide))]
    have hcpos : (skipCommentsPos S1 pos).1 = pos := by
      unfold skipCommentsPos
      rw [if_neg (fun hx => by rw [hnulp] at hx; exact absurd hx.1 (by decide))]
    have hwflag : (skipWhitespacePos S1 pos).2 = false := by
      unfold skipWhitespacePos
      rw [hnulp]
      rfl
    have hwpos : (skipWhitespacePos S1 pos).1 = pos :=
      scanWhilePos_stop (by rw [hnulp]; decide)
    have hwb := skipWhitespacePos_bisim hagree hnul hlen1 hlen2 hpos
    simp only [skipLoopGo]
    rw [← hcb.1, hcflag, hcpos]
    rw [if_neg Bool.false_ne_true, if_neg Bool.false_ne_true]
    rw [← hwb.1, hwflag, hwpos]
    rw [if_neg Bool.false_ne_true, if_neg Bool.false_ne_true]
    exact ⟨rfl, Nat.le_refl _, hpos⟩
  | succ n ih =>
    intro pos fuel1 fuel2 hpos hf1 hf2 hk
    obtain ⟨f1, rfl⟩ : ∃ f, fuel1 = f + 1 := ⟨fuel1 - 1, by omega⟩
    obtain ⟨f2, rfl⟩ : ∃ f, fuel2 = f + 1 := ⟨fuel2 - 1, by omega⟩
    have hcb := skipCommentsPos_bisim hagree hnul hlen1 hlen2 hpos
    simp only [skipLoopGo]
    rw [← hcb.1]
    by_cases hcf : (skipCommentsPos S1 pos).2 = true
    · rw [if_pos hcf, if_pos hcf]
      -- a skipped comment strictly advances
      have hadv : pos < (skipCommentsPos S1 pos).1 := by
        unfold skipCommentsPos at hcf ⊢
        by_cases hx : charAt S1 pos = '/' ∧ charAt S1 (pos + 1) = '/'
        · rw [if_pos hx]
          have hltN : pos < N := lt_of_le_of_ne hpos (fun he => by
            rw [he, hnul] at hx; exact absurd hx.1 (by decide))
          have hn1 : nextPos S1 pos = pos + 1 := nextPos_lt (by omega)
          rw [hn1]
          exact Nat.lt_of_lt_of_le (Nat.lt_succ_self pos) (scanWhilePos_le S1 _ (pos + 1))
        · rw [if_neg hx] at hcf
          simp at hcf
      obtain ⟨he, hge, hle⟩ :=
        ih (skipCommentsPos S1 pos).1 f1 f2 hcb.2.2 (by omega) (by omega) (by omega)
      exact ⟨he, Nat.le_trans (Nat.le_of_lt hadv) hge, hle⟩
    · have hcf2 : ¬((skipCommentsPos S1 pos).2 = true) := hcf
      rw [if_neg hcf, if_neg hcf2]
      have hcpos : (skipCommentsPos S1 pos).1 = pos := by
        unfold skipCommentsPos at hcf ⊢
        by_cases hx : charAt S1 pos = '/' ∧ charAt S1 (pos + 1) = '/'
        · rw [if_pos hx] at hcf; exact absurd rfl hcf
        · rw [if_neg hx]
      rw [hcpos]
      have hwb := skipWhitespacePos_bisim hagree hnul hlen1 hlen2 hpos
      rw [← hwb.1]
      by_cases hwf : (skipWhitespacePos S1 pos).2 = true
      · rw [if_pos hwf, if_pos hwf]
        have hws : rustIsWhitespace (charAt S1 pos) = true := hwf
        have hne : charAt S1 pos ≠ '\x00' := fun hc => by
          rw [hc] at hws; exact absurd hws (by decide)
        have hltN : pos < N := lt_of_le_of_ne hpos (fun he => hne (he ▸ hnul))
        have hadv : pos < (skipWhitespacePos S1 pos).1 :=
          scanWhilePos_gt hws (by omega)
        obtain ⟨he, hge, hle⟩ :=
          ih (skipWhitespacePos S1 pos).1 f1 f2 hwb.2.2 (by omega) (by omega) (by omega)
        exact ⟨he, Nat.le_trans (Nat.le_of_lt hadv) hge, hle⟩
      · rw [if_neg hwf, if_neg hwf]
        exact ⟨rfl, hwb.2.1, hwb.2.2⟩

theorem gtToken_bisim {S1 S2 : List Char} {N : Nat}
    (hagree : ∀ j, j ≤ N → charAt S1 j = charAt S2 j)
    (hnul : charAt S1 N = '\x00')
    (hlen1 : N < S1.length) (hlen2 : S2.length = N + 1)
    {pos : Nat} (hposlt : pos < N) : gtToken S1 pos = gtToken S2 pos := by
  have hn1 : nextPos S1 pos = pos + 1 := nextPos_lt (by omega)
  have hn2 : nextPos S2 pos = pos + 1 := nextPos_lt (by omega)
  have hag : charAt S1 (pos + 1) = charAt S2 (pos + 1) := hagree _ (by omega)
  unfold gtToken
  rw [hn1, hn2, hag]
  by_cases he : charAt S2 (pos + 1) = '='
  · rw [if_pos he, if_pos he]
    have hlt2 : pos + 1 < N := by
      rcases Nat.lt_or_ge (pos + 1) N with h | h
      · exact h
      · have hx : pos + 1 = N := by omega
        rw [hx, ← hagree N (Nat.le_refl _), hnul] at he
        exact absurd he (by decide)
    rw [nextPos_lt (by omega : pos + 1 + 1 < S1.length),
      nextPos_lt (by omega : pos + 1 + 1 < S2.length)]
  · rw [if_neg he, if_neg he]

theorem ltToken_bisim {S1 S2 : List Char} {N : Nat}
    (hagree : ∀ j, j ≤ N → charAt S1 j = charAt S2 j)
    (hnul : charAt S1 N = '\x00')
    (hlen1 : N < S1.length) (hlen2 : S2.length = N + 1)
    {pos : Nat} (hposlt : pos < N) : ltToken S1 pos = ltToken S2 pos := by
  have hn1 : nextPos S1 pos = pos + 1 := nextPos_lt (by omega)
  have hn2 : nextPos S2 pos = pos + 1 := nextPos_lt (by omega)
  have hag : charAt S1 (pos + 1) = charAt S2 (pos + 1) := hagree _ (by omega)
  unfold ltToken
  rw [hn1, hn2, hag]
  by_cases he : charAt S2 (pos + 1) = '='
  · rw [if_pos he, if_pos he]
    have hlt2 : pos + 1 < N := by
      rcases Nat.lt_or_ge (pos + 1) N with h | h
      · exact h
      · have hx : pos + 1 = N := by omega
        rw [hx, ← hagree N (Nat.le_refl _), hnul] at he
        exact absurd he (by decide)
    rw [nextPos_lt (by omega : pos + 1 + 1 < S1.length),
      nextPos_lt (by omega : pos + 1 + 1 < S2.length)]
  · rw [if_neg he, if_neg he]

theorem eqToken_bisim {S1 S2 : List Char} {N : Nat}
    (hagree : ∀ j, j ≤ N → charAt S1 j = charAt S2 j)
    (hnul : charAt S1 N = '\x00')
    (hlen1 : N < S1.length) (hlen2 : S2.length = N + 1)
    {pos : Nat} (hposlt : pos < N) : eqToken S1 pos = eqToken S2 pos := by
  have hn1 : nextPos S1 pos = pos + 1 := nextPos_lt (by omega)
  have hn2 : nextPos S2 pos = pos + 1 := nextPos_lt (by omega)
  have hag : charAt S1 (pos + 1) = charAt S2 (pos + 1) := hagree _ (by omega)
  unfold eqToken
  rw [hn1, hn2, hag]
  by_cases he : charAt S2 (pos + 1) = '='
  · rw [if_pos he, if_pos he]
    have hlt2 : pos + 1 < N := by
      rcases Nat.lt_or_ge (pos + 1) N with h | h
      · exact h
      · have hx : pos + 1 = N := by omega
        rw [hx, ← hagree N (Nat.le_refl _), hnul] at he
        exact absurd he (by decide)
    rw [nextPos_lt (by omega : pos + 1 + 1 < S1.length),
      nextPos_lt (by omega : pos + 1 + 1 < S2.length)]
  · rw [if_neg he, if_neg he]

theorem bangToken_bisim {S1 S2 : List Char} {N : Nat}
    (hagree : ∀ j, j ≤ N → charAt S1 j = charAt S2 j)
    (hnul : charAt S1 N = '\x00')
    (hlen1 : N < S1.length) (hlen2 : S2.length = N + 1)
    {pos : Nat} (hposlt : pos < N) : bangToken S1 pos = bangToken S2 pos := by
  have hn1 : nextPos S1 pos = pos + 1 := nextPos_lt (by omega)
  have hn2 : nextPos S2 pos = pos + 1 := nextPos_lt (by omega)
  have hag : charAt S1 (pos + 1) = charAt S2 (pos + 1) := hagree _ (by omega)
  unfold bangToken
  rw [hn1, hn2, hag]
  by_cases he : charAt S2 (pos + 1) = '='
  · rw [if_pos he, if_pos he]
    have hlt2 : pos + 1 < N := by
      rcases Nat.lt_or_ge (pos + 1) N with h | h
      · exact h
      · have hx : pos + 1 = N := by omega
        rw [hx, ← hagree N (Nat.le_refl _), hnul] at he
        exact absurd he (by decide)
    rw [nextPos_lt (by omega : pos + 1 + 1 < S1.length),
      nextPos_lt (by omega : pos + 1 + 1 < S2.length)]
  · rw [if_neg he, if_neg he]

theorem numberToken_bisim {S1 S2 : List Char} {N : Nat}
    (hagree : ∀ j, j ≤ N → charAt S1 j = charAt S2 j)
    (hnul : charAt S1 N = '\x00')
    (hlen1 : N < S1.length) (hlen2 : S2.length = N + 1)
    {pos : Nat} (hpos : pos ≤ N) : numberToken S1 pos = numberToken S2 pos := by
  obtain ⟨hbeq, hble⟩ := scan_bisim hagree hnul hlen1 hlen2
    (p := charIsNumeric) (by decide) (N - pos) pos hpos (Nat.le_refl _)
  simp only [numberToken]
  rw [← hbeq]
  have hagb : charAt S1 (scanWhilePos S1 charIsNumeric pos) =
      charAt S2 (scanWhilePos S1 charIsNumeric pos) := hagree _ hble
  rw [hagb]
  by_cases hdot : charAt S2 (scanWhilePos S1 charIsNumeric pos) = '.'
  · rw [if_pos hdot, if_pos hdot]
    have hbltN : scanWhilePos S1 charIsNumeric pos < N := by
      rcases Nat.lt_or_ge (scanWhilePos S1 charIsNumeric pos) N with h | h
      · exact h
      · have hbe : scanWhilePos S1 charIsNumeric pos = N := by omega
        rw [hbe, ← hagree N (Nat.le_refl _), hnul] at hdot
        exact absurd hdot (by decide)
    rw [nextPos_lt (by omega : scanWhilePos S1 charIsNumeric pos + 1 < S1.length),
      nextPos_lt (by omega : scanWhilePos S1 charIsNumeric pos + 1 < S2.length)]
    obtain ⟨hp2eq, hp2le⟩ := scan_bisim hagree hnul hlen1 hlen2
      (p := charIsNumeric) (by decide) (N - (scanWhilePos S1 charIsNumeric pos + 1))
      (scanWhilePos S1 charIsNumeric pos + 1) (by omega) (Nat.le_refl _)
    rw [← hp2eq]
    rw [sliceChars_congr (fun j h1 h2 => hagree j (by omega))]
  · rw [if_neg hdot, if_neg hdot]
    rw [sliceChars_congr (fun j h1 h2 => hagree j (by omega))]

theorem stringToken_bisim {S1 S2 : List Char} {N : Nat}
    (hagree : ∀ j, j ≤ N → charAt S1 j = charAt S2 j)
    (hnul : charAt S1 N = '\x00')
    (hlen1 : N < S1.length) (hlen2 : S2.length = N + 1)
    {pos : Nat} (hposlt : pos < N) : stringToken S1 pos = stringToken S2 pos := by
  have hn1 : nextPos S1 pos = pos + 1 := nextPos_lt (by omega)
  have hn2 : nextPos S2 pos = pos + 1 := nextPos_lt (by omega)
  simp only [stringToken, sliceStr]
  rw [hn1, hn2]
  obtain ⟨hp2eq, hp2le⟩ := scan_bisim hagree hnul hlen1 hlen2
    (p := fun x => !(x == '"') && !(x == '\x00')) (by decide) (N - (pos + 1)) (pos + 1)
    (by omega) (Nat.le_refl _)
  rw [← hp2eq]
  have hagp2 : charAt S1 (scanWhilePos S1 (fun x => !(x == '"') && !(x == '\x00')) (pos + 1)) =
      charAt S2 (scanWhilePos S1 (fun x => !(x == '"') && !(x == '\x00')) (pos + 1)) :=
    hagree _ hp2le
  rw [hagp2]
  by_cases hend : charAt S2 (scanWhilePos S1 (fun x => !(x == '"') && !(x == '\x00')) (pos + 1)) = '\x00'
  · rw [if_pos hend, if_pos hend]
  · rw [if_neg hend, if_neg hend]
    have hp2ltN : scanWhilePos S1 (fun x => !(x == '"') && !(x == '\x00')) (pos + 1) < N := by
      rcases Nat.lt_or_ge (scanWhilePos S1 (fun x => !(x == '"') && !(x == '\x00')) (pos + 1)) N with h | h
      · exact h
      · have hbe : scanWhilePos S1 (fun x => !(x == '"') && !(x == '\x00')) (pos + 1) = N := by omega
        rw [hbe, ← hagree N (Nat.le_refl _), hnul] at hend
        exact absurd rfl hend
    rw [nextPos_lt (by omega :
        scanWhilePos S1 (fun x => !(x == '"') && !(x == '\x00')) (pos + 1) + 1 < S1.length),
      nextPos_lt (by omega :
        scanWhilePos S1 (fun x => !(x == '"') && !(x == '\x00')) (pos + 1) + 1 < S2.length)]
    rw [sliceChars_congr (fun j h1 h2 => hagree j (by omega)),
      sliceChars_congr (fun j h1 h2 => hagree j (by omega))]

theorem identToken_bisim {S1 S2 : List Char} {N : Nat}
    (hagree : ∀ j, j ≤ N → charAt S1 j = charAt S2 j)
    (hnul : charAt S1 N = '\x00')
    (hlen1 : N < S1.length) (hlen2 : S2.length = N + 1)
    {pos : Nat} (hpos : pos ≤ N) : identToken S1 pos = identToken S2 pos := by
  obtain ⟨hp1eq, hp1le⟩ := scan_bisim hagree hnul hlen1 hlen2
    (p := fun x => rustIsAlphanumeric x || x == '_') (by decide) (N - pos) pos hpos
    (Nat.le_refl _)
  simp only [identToken, sliceStr]
  rw [← hp1eq]
  have hs := sliceChars_congr (a := pos)
    (b := scanWhilePos S1 (fun x => rustIsAlphanumeric x || x == '_') pos)
    (fun j h1 h2 => hagree j (by omega))
  simp only [hs]

theorem tokenAt_bisim {S1 S2 : List Char} {N : Nat}
    (hagree : ∀ j, j ≤ N → charAt S1 j = charAt S2 j)
    (hnul : charAt S1 N = '\x00')
    (hlen1 : N < S1.length) (hlen2 : S2.length = N + 1)
    {pos : Nat} (hpos : pos ≤ N) : tokenAt S1 pos = tokenAt S2 pos := by
  have hag : charAt S2 pos = charAt S1 pos := (hagree pos hpos).symm
  have hposlt : charAt S1 pos ≠ '\x00' → pos < N := fun hne =>
    lt_of_le_of_ne hpos (fun he => hne (he ▸ hnul))
  unfold tokenAt
  rw [hag]
  by_cases h1 : charAt S1 pos = '+'
  · have hlt := hposlt (by rw [h1]; decide)
    rw [if_pos h1, if_pos h1, nextPos_lt (by omega : pos + 1 < S1.length),
      nextPos_lt (by omega : pos + 1 < S2.length)]
  rw [if_neg h1, if_neg h1]
  by_cases h2 : charAt S1 pos = '-'
  · have hlt := hposlt (by rw [h2]; decide)
    rw [if_pos h2, if_pos h2, nextPos_lt (by omega : pos + 1 < S1.length),
      nextPos_lt (by omega : pos + 1 < S2.length)]
  rw [if_neg h2, if_neg h2]
  by_cases h3 : charAt S1 pos = '*'
  · have hlt := hposlt (by rw [h3]; decide)
    rw [if_pos h3, if_pos h3, nextPos_lt (by omega : pos + 1 < S1.length),
      nextPos_lt (by omega : pos + 1 < S2.length)]
  rw [if_neg h3, if_neg h3]
  by_cases h4 : charAt S1 pos = '/'
  · have hlt := hposlt (by rw [h4]; decide)
    rw [if_pos h4, if_pos h4, nextPos_lt (by omega : pos + 1 < S1.length),
      nextPos_lt (by omega : pos + 1 < S2.length)]
  rw [if_neg h4, if_neg h4]
  by_cases h5 : charAt S1 pos = '%'
  · have hlt := hposlt (by rw [h5]; decide)
    rw [if_pos h5, if_pos h5, nextPos_lt (by omega : pos + 1 < S1.length),
      nextPos_lt (by omega : pos + 1 < S2.length)]
  rw [if_neg h5, if_neg h5]
  by_cases h6 : charAt S1 pos = '>'
  · rw [if_pos h6, if_pos h6]
    exact gtToken_bisim hagree hnul hlen1 hlen2 (hposlt (by rw [h6]; decide))
  rw [if_neg h6, if_neg h6]
  by_cases h7 : charAt S1 pos = '<'
  · rw [if_pos h7, if_pos h7]
    exact ltToken_bisim hagree hnul hlen1 hlen2 (hposlt (by rw [h7]; decide))
  rw [if_neg h7, if_neg h7]
  by_cases h8 : charAt S1 pos = '='
  · rw [if_pos h8, if_pos h8]
    exact eqToken_bisim hagree hnul hlen1 hlen2 (hposlt (by rw [h8]; decide))
  rw [if_neg h8, if_neg h8]
  by_cases h9 : charAt S1 pos = '!'
  · rw [if_pos h9, if_pos h9]
    exact bangToken_bisim hagree hnul hlen1 hlen2 (hposlt (by rw [h9]; decide))
  rw [if_neg h9, if_neg h9]
  by_cases h10 : (charAt S1 pos).isDigit = true
  · rw [if_pos h10, if_pos h10]
    exact numberToken_bisim hagree hnul hlen1 hlen2 hpos
  rw [if_neg h10, if_neg h10]
  by_cases h11 : charAt S1 pos = '"'
  · rw [if_pos h11, if_pos h11]
    exact stringToken_bisim hagree hnul hlen1 hlen2 (hposlt (by rw [h11]; decide))
  rw [if_neg h11, if_neg h11]
  by_cases h12 : (charAt S1 pos).isAlpha = true
  · rw [if_pos h12, if_pos h12]
    exact identToken_bisim hagree hnul hlen1 hlen2 hpos
  rw [if_neg h12, if_neg h12]

theorem scanWhilePos_le_nul {S : List Char} {N pos : Nat} {p : Char → Bool}
    (hnul : charAt S N = '\x00') (hp0 : p '\x00' = false) (hpos : pos ≤ N) :
    scanWhilePos S p pos ≤ N := by
  by_contra hc
  push_neg at hc
  have hm := scanWhilePos_mem hpos hc
  rw [hnul, hp0] at hm
  exact absurd hm (by decide)

theorem charIsNumeric_of_digit {c : Char} (h : c.isDigit = true) :
    charIsNumeric c = true := by
  have h2 := h
  simp [Char.isDigit] at h2
  have hv : c.val < 128 := Nat.lt_of_le_of_lt h2.2 (by decide)
  rw [charIsNumeric, if_pos hv]
  exact h

theorem rustIsAlphanumeric_of_alpha {c : Char} (h : c.isAlpha = true) :
    rustIsAlphanumeric c = true := by
  have h2 := h
  simp [Char.isAlpha, Char.isUpper, Char.isLower] at h2
  have hv : c.val < 128 := by
    rcases h2 with ⟨ha, hb⟩ | ⟨ha, hb⟩
    · exact Nat.lt_of_le_of_lt hb (by decide)
    · exact Nat.lt_of_le_of_lt hb (by decide)
  rw [rustIsAlphanumeric, if_pos hv, Char.isAlphanum, h]
  rfl

/-- Positions produced by a successful `tokenAt` stay within the NUL bound
and strictly advance except in the EOF branch. -/
theorem tokenAt_ok_bounds {src : List Char} {N : Nat}
    (hnul : charAt src N = '\x00') (hlen : N < src.length)
    {pos : Nat} (hpos : pos ≤ N) :
    ∀ t p', tokenAt src pos = .ok t p' →
      pos ≤ p' ∧ p' ≤ N ∧ (charAt src pos ≠ '\x00' → pos < p') := by
  have hposlt : charAt src pos ≠ '\x00' → pos < N := fun hne =>
    lt_of_le_of_ne hpos (fun he => hne (he ▸ hnul))
  refine tokenAt_elim (motive := fun r => ∀ t p', r = .ok t p' →
      pos ≤ p' ∧ p' ≤ N ∧ (charAt src pos ≠ '\x00' → pos < p')) src pos
    ?_ ?_ ?_ ?_ ?_ ?_ ?_ ?_ ?_ ?_ ?_ ?_ ?_ ?_
  · intro hc t p' h
    injection h with h1 h2
    have hlt := hposlt (by rw [hc]; decide)
    have hn : nextPos src pos = pos + 1 := nextPos_lt (by omega)
    rw [hn] at h2
    exact ⟨by omega, by omega, fun _ => by omega⟩
  · intro hc t p' h
    injection h with h1 h2
    have hlt := hposlt (by rw [hc]; decide)
    have hn : nextPos src pos = pos + 1 := nextPos_lt (by omega)
    rw [hn] at h2
    exact ⟨by omega, by omega, fun _ => by omega⟩
  · intro hc t p' h
    injection h with h1 h2
    have hlt := hposlt (by rw [hc]; decide)
    have hn : nextPos src pos = pos + 1 := nextPos_lt (by omega)
    rw [hn] at h2
    exact ⟨by omega, by omega, fun _ => by omega⟩
  · intro hc t p' h
    injection h with h1 h2
    have hlt := hposlt (by rw [hc]; decide)
    have hn : nextPos src pos = pos + 1 := nextPos_lt (by omega)
    rw [hn] at h2
    exact ⟨by omega, by omega, fun _ => by omega⟩
  · intro hc t p' h
    injection h with h1 h2
    have hlt := hposlt (by rw [hc]; decide)
    have hn : nextPos src pos = pos + 1 := nextPos_lt (by omega)
    rw [hn] at h2
    exact ⟨by omega, by omega, fun _ => by omega⟩
  · intro hc t p' h
    have hlt := hposlt (by rw [hc]; decide)
    have hn : nextPos src pos = pos + 1 := nextPos_lt (by omega)
    unfold gtToken at h
    rw [hn] at h
    split_ifs at h with he hw
    · injection h with h1 h2
      have hlt2 : pos + 1 < N := by
        rcases Nat.lt_or_ge (pos + 1) N with hx | hx
        · exact hx
        · have hy : pos + 1 = N := by omega
          rw [hy, hnul] at he
          exact absurd he (by decide)
      have hn2 : nextPos src (pos + 1) = pos + 2 := nextPos_lt (by omega)
      rw [hn2] at h2
      exact ⟨by omega, by omega, fun _ => by omega⟩
    · injection h with h1 h2
      exact ⟨by omega, by omega, fun _ => by omega⟩
  · intro hc t p' h
    have hlt := hposlt (by rw [hc]; decide)
    have hn : nextPos src pos = pos + 1 := nextPos_lt (by omega)
    unfold ltToken at h
    rw [hn] at h
    split_ifs at h with he hw
    · injection h with h1 h2
      have hlt2 : pos + 1 < N := by
        rcases Nat.lt_or_ge (pos + 1) N with hx | hx
        · exact hx
        · have hy : pos + 1 = N := by omega
          rw [hy, hnul] at he
          exact absurd he (by decide)
      have hn2 : nextPos src (pos + 1) = pos + 2 := nextPos_lt (by omega)
      rw [hn2] at h2
      exact ⟨by omega, by omega, fun _ => by omega⟩
    · injection h with h1 h2
      exact ⟨by omega, by omega, fun _ => by omega⟩
  · intro hc t p' h
    have hlt := hposlt (by rw [hc]; decide)
    have hn : nextPos src pos = pos + 1 := nextPos_lt (by omega)
    unfold eqToken at h
    rw [hn] at h
    split_ifs at h with he
    · injection h with h1 h2
      have hlt2 : pos + 1 < N := by
        rcases Nat.lt_or_ge (pos + 1) N with hx | hx
        · exact hx
        · have hy : pos + 1 = N := by omega
          rw [hy, hnul] at he
          exact absurd he (by decide)
      have hn2 : nextPos src (pos + 1) = pos + 2 := nextPos_lt (by omega)
      rw [hn2] at h2
      exact ⟨by omega, by omega, fun _ => by omega⟩
  · intro hc t p' h
    have hlt := hposlt (by rw [hc]; decide)
    have hn : nextPos src pos = pos + 1 := nextPos_lt (by omega)
    unfold bangToken at h
    rw [hn] at h
    split_ifs at h with he
    · injection h with h1 h2
      have hlt2 : pos + 1 < N := by
        rcases Nat.lt_or_ge (pos + 1) N with hx | hx
        · exact hx
        · have hy : pos + 1 = N := by omega
          rw [hy, hnul] at he
          exact absurd he (by decide)
      have hn2 : nextPos src (pos + 1) = pos + 2 := nextPos_lt (by omega)
      rw [hn2] at h2
      exact ⟨by omega, by omega, fun _ => by omega⟩
  · intro hc t p' h
    have hlt := hposlt (fun hx => by rw [hx] at hc; exact absurd hc (by decide))
    simp only [numberToken] at h
    have hble : scanWhilePos src charIsNumeric pos ≤ N :=
      scanWhilePos_le_nul hnul (by decide) hpos
    have hbgt : pos < scanWhilePos src charIsNumeric pos :=
      scanWhilePos_gt (charIsNumeric_of_digit hc) (by omega)
    by_cases hdot : charAt src (scanWhilePos src charIsNumeric pos) = '.'
    · rw [if_pos hdot] at h
      have hbn : scanWhilePos src charIsNumeric pos < N := by
        rcases Nat.lt_or_ge (scanWhilePos src charIsNumeric pos) N with hx | hx
        · exact hx
        · have hy : scanWhilePos src charIsNumeric pos = N := by omega
          rw [hy, hnul] at hdot
          exact absurd hdot (by decide)
      have hn2 : nextPos src (scanWhilePos src charIsNumeric pos) =
          scanWhilePos src charIsNumeric pos + 1 := nextPos_lt (by omega)
      rw [hn2] at h
      have hp2le : scanWhilePos src charIsNumeric (scanWhilePos src charIsNumeric pos + 1) ≤ N :=
        scanWhilePos_le_nul hnul (by decide) (by omega)
      have hp2ge : scanWhilePos src charIsNumeric pos + 1 ≤
          scanWhilePos src charIsNumeric (scanWhilePos src charIsNumeric pos + 1) :=
        scanWhilePos_le src charIsNumeric _
      split_ifs at h with hacc
      injection h with h1 h2
      exact ⟨by omega, by omega, fun _ => by omega⟩
    · rw [if_neg hdot] at h
      split_ifs at h with hacc
      injection h with h1 h2
      exact ⟨by omega, by omega, fun _ => by omega⟩
  · intro hc t p' h
    have hlt := hposlt (by rw [hc]; decide)
    have hn : nextPos src pos = pos + 1 := nextPos_lt (by omega)
    simp only [stringToken] at h
    rw [hn] at h
    have hp2le : scanWhilePos src (fun x => !(x == '"') && !(x == '\x00')) (pos + 1) ≤ N :=
      scanWhilePos_le_nul hnul (by decide) (by omega)
    have hp2ge : pos + 1 ≤ scanWhilePos src (fun x => !(x == '"') && !(x == '\x00')) (pos + 1) :=
      scanWhilePos_le src _ _
    split_ifs at h with hend
    injection h with h1 h2
    have hp2lt : scanWhilePos src (fun x => !(x == '"') && !(x == '\x00')) (pos + 1) < N := by
      rcases Nat.lt_or_ge (scanWhilePos src (fun x => !(x == '"') && !(x == '\x00')) (pos + 1)) N with hx | hx
      · exact hx
      · have hy : scanWhilePos src (fun x => !(x == '"') && !(x == '\x00')) (pos + 1) = N := by omega
        rw [hy, hnul] at hend
        exact absurd rfl hend
    have hn2 : nextPos src (scanWhilePos src (fun x => !(x == '"') && !(x == '\x00')) (pos + 1)) =
        scanWhilePos src (fun x => !(x == '"') && !(x == '\x00')) (pos + 1) + 1 :=
      nextPos_lt (by omega)
    rw [hn2] at h2
    exact ⟨by omega, by omega, fun _ => by omega⟩
  · intro hc hd t p' h
    have hlt := hposlt (fun hx => by rw [hx] at hc; exact absurd hc (by decide))
    simp only [identToken] at h
    injection h with h1 h2
    have hp1le : scanWhilePos src (fun x => rustIsAlphanumeric x || x == '_') pos ≤ N :=
      scanWhilePos_le_nul hnul (by decide) hpos
    have hp1gt : pos < scanWhilePos src (fun x => rustIsAlphanumeric x || x == '_') pos :=
      scanWhilePos_gt (by rw [rustIsAlphanumeric_of_alpha hc]; rfl) (by omega)
    exact ⟨by omega, by omega, fun _ => by omega⟩
  · intro hc t p' h
    injection h with h1 h2
    exact ⟨by omega, by omega, fun hne => absurd hc hne⟩
  · intro _ _ _ t p' h
    cases h

theorem nextTokenPos_bisim {S1 S2 : List Char} {N : Nat}
    (hagree : ∀ j, j ≤ N → charAt S1 j = charAt S2 j)
    (hnul : charAt S1 N = '\x00')
    (hlen1 : N < S1.length) (hlen2 : S2.length = N + 1)
    {pos : Nat} (hpos : pos ≤ N) :
    nextTokenPos S1 pos = nextTokenPos S2 pos ∧
    ∀ t p', nextTokenPos S1 pos = .ok t p' →
      p' ≤ N ∧ (charAt S1 pos ≠ '\x00' → pos < p') := by
  obtain ⟨hseq, hsge, hsle⟩ := skipLoopGo_bisim hagree hnul hlen1 hlen2 (N - pos) pos
    (S1.length + 1 - pos) (S2.length + 1 - pos) hpos (by omega) (by omega) (Nat.le_refl _)
  constructor
  · show tokenAt S1 (skipLoopPos S1 pos) = tokenAt S2 (skipLoopPos S2 pos)
    rw [skipLoopPos, skipLoopPos, ← hseq]
    exact tokenAt_bisim hagree hnul hlen1 hlen2 hsle
  · intro t p' h
    rw [show nextTokenPos S1 pos = tokenAt S1 (skipLoopPos S1 pos) from rfl,
      skipLoopPos] at h
    obtain ⟨hge2, hle2, hadv⟩ := tokenAt_ok_bounds hnul hlen1 hsle t p' h
    refine ⟨hle2, fun hne => ?_⟩
    rcases Nat.eq_or_lt_of_le hsge with he | hlt
    · exact he ▸ hadv (by rw [← he]; exact hne)
    · exact Nat.lt_of_lt_of_le hlt hge2

theorem tokenizeLoopGo_bisim {S1 S2 : List Char} {N : Nat}
    (hagree : ∀ j, j ≤ N → charAt S1 j = charAt S2 j)
    (hnul : charAt S1 N = '\x00')
    (hlen1 : N < S1.length) (hlen2 : S2.length = N + 1) :
    ∀ (k pos fuel1 fuel2 : Nat), pos ≤ N → N - pos < fuel1 → N - pos < fuel2 →
      N - pos ≤ k → tokenizeLoopGo S1 fuel1 pos = tokenizeLoopGo S2 fuel2 pos := by
  intro k
  induction k with
  | zero =>
    intro pos fuel1 fuel2 hpos hf1 hf2 hk
    have hpN : pos = N := by omega
    obtain ⟨f1, rfl⟩ : ∃ f, fuel1 = f + 1 := ⟨fuel1 - 1, by omega⟩
    obtain ⟨f2, rfl⟩ : ∃ f, fuel2 = f + 1 := ⟨fuel2 - 1, by omega⟩
    have h01 : charAt S1 pos = '\x00' := hpN ▸ hnul
    have h02 : charAt S2 pos = '\x00' := by rw [← hagree pos hpos]; exact h01
    simp only [tokenizeLoopGo]
    rw [if_pos h01, if_pos h02]
  | succ n ih =>
    intro pos fuel1 fuel2 hpos hf1 hf2 hk
    obtain ⟨f1, rfl⟩ : ∃ f, fuel1 = f + 1 := ⟨fuel1 - 1, by omega⟩
    obtain ⟨f2, rfl⟩ : ∃ f, fuel2 = f + 1 := ⟨fuel2 - 1, by omega⟩
    have hag := hagree pos hpos
    simp only [tokenizeLoopGo]
    by_cases h0 : charAt S1 pos = '\x00'
    · rw [if_pos h0, if_pos (show charAt S2 pos = '\x00' by rw [← hag]; exact h0)]
    · have h02 : ¬(charAt S2 pos = '\x00') := by rw [← hag]; exact h0
      rw [if_neg h0, if_neg h02]
      obtain ⟨hneq, hbounds⟩ := nextTokenPos_bisim hagree hnul hlen1 hlen2 hpos
      rw [← hneq]
      cases hn : nextTokenPos S1 pos with
      | ok t p' =>
        obtain ⟨hple, hpgt⟩ := hbounds t p' hn
        have hadv := hpgt h0
        have hrec := ih p' f1 f2 hple (by omega) (by omega) (by omega)
        dsimp only
        rw [hrec]
      | err e => rfl
      | panicked => rfl

theorem mkSource_decomp {s : String} {t R : List Char}
    (hS : s.data = t ++ '\x00' :: R) :
    ∃ R2, mkSource s = t ++ '\x00' :: R2 := by
  unfold mkSource
  split
  · exact ⟨R, hS⟩
  · exact ⟨R ++ ['\x00'], by rw [hS]; simp⟩

/-- C10 (confirmed): tokenization sees only the part of the source before
its first NUL character — `tokenize` of any string equals `tokenize` of its
prefix before the first NUL (proved by bisimulation of the lexer on the
original and the truncated source).  In particular a string literal whose
opening quote is followed by a NUL before any closing quote fails with
`StringNotTerminated` even though a closing quote appears later. -/
theorem C10_first_nul :
    (∀ s : String, tokenize s = tokenize (truncAtNul s)) ∧
    tokenize ("\"a\x00b\"") = .err .stringNotTerminated := by
  constructor
  · intro s
    by_cases hmem : '\x00' ∈ s.data
    · have hsplit := List.takeWhile_append_dropWhile (fun c => !(c == '\x00')) s.data
      have htnn : ∀ c ∈ s.data.takeWhile (fun c => !(c == '\x00')), ¬(c = '\x00') := by
        intro c hc hce
        have hp := List.mem_takeWhile_imp hc
        rw [hce] at hp
        exact absurd hp (by decide)
      have hdne : s.data.dropWhile (fun c => !(c == '\x00')) ≠ [] := by
        intro hd
        rw [hd, List.append_nil] at hsplit
        rw [← hsplit] at hmem
        exact htnn '\x00' hmem rfl
      have hd0 : (s.data.dropWhile (fun c => !(c == '\x00'))).head hdne = '\x00' := by
        have hh := List.head_dropWhile_not (fun c => !(c == '\x00')) s.data hdne
        simp only [Bool.not_eq_false'] at hh
        exact eq_of_beq hh
      have hdec : s.data.dropWhile (fun c => !(c == '\x00')) =
          '\x00' :: (s.data.dropWhile (fun c => !(c == '\x00'))).tail := by
        conv_lhs => rw [← List.head_cons_tail _ hdne]
        rw [hd0]
      have hS : s.data = s.data.takeWhile (fun c => !(c == '\x00')) ++
          '\x00' :: (s.data.dropWhile (fun c => !(c == '\x00'))).tail :=
        hsplit.symm.trans (by rw [← hdec])
      obtain ⟨R2, hS1⟩ := mkSource_decomp hS
      have htrunc : (truncAtNul s).data = s.data.takeWhile (fun c => !(c == '\x00')) := rfl
      have hS2 : mkSource (truncAtNul s) =
          s.data.takeWhile (fun c => !(c == '\x00')) ++ ['\x00'] := by
        unfold mkSource
        rw [htrunc]
        split
        case isTrue hx =>
          exact absurd (htnn _ (List.mem_of_mem_getLast? hx) rfl) (fun hy => hy)
        case isFalse _ => rfl
      have hagree : ∀ j, j ≤ (s.data.takeWhile (fun c => !(c == '\x00'))).length →
          charAt (mkSource s) j = charAt (mkSource (truncAtNul s)) j := by
        intro j hj
        rw [hS1, hS2]
        rcases Nat.lt_or_ge j (s.data.takeWhile (fun c => !(c == '\x00'))).length with hlt | hge
        · rw [charAt_append_lt hlt, charAt_append_lt hlt]
        · have hje : j = (s.data.takeWhile (fun c => !(c == '\x00'))).length := by omega
          rw [hje]
          have h2 : (s.data.takeWhile (fun c => !(c == '\x00')) ++ ['\x00'] : List Char) =
              s.data.takeWhile (fun c => !(c == '\x00')) ++ '\x00' :: [] := rfl
          rw [charAt_append_nul, h2, charAt_append_nul]
      have hnul : charAt (mkSource s) (s.data.takeWhile (fun c => !(c == '\x00'))).length =
          '\x00' := by
        rw [hS1]
        exact charAt_append_nul _ R2
      have hlen1 : (s.data.takeWhile (fun c => !(c == '\x00'))).length <
          (mkSource s).length := by
        rw [hS1]
        simp
      have hlen2 : (mkSource (truncAtNul s)).length =
          (s.data.takeWhile (fun c => !(c == '\x00'))).length + 1 := by
        rw [hS2]
        simp
      show tokenizeLoopGo (mkSource s) ((mkSource s).length + 1) 0 =
        tokenizeLoopGo (mkSource (truncAtNul s)) ((mkSource (truncAtNul s)).length + 1) 0
      exact tokenizeLoopGo_bisim hagree hnul hlen1 hlen2
        (s.data.takeWhile (fun c => !(c == '\x00'))).length 0 _ _
        (Nat.zero_le _) (by omega) (by omega) (by omega)
    · have htw : s.data.takeWhile (fun c => !(c == '\x00')) = s.data := by
        apply List.takeWhile_eq_self_iff.2
        intro c hc
        simp only [Bool.not_eq_true']
        exact beq_eq_false_iff_ne.2 (fun he => hmem (he ▸ hc))
      have hts : truncAtNul s = s := by
        unfold truncAtNul
        rw [htw]
      rw [hts]
  · rfl

end Constant
